import Mathlib

/-!
# Verification of the `avgrow` adaptive run-length averaging filter

Shallow embedding of `src/filter/avgrow.py` (module `filter.avgrow`,
version 3.26.20.8).  Python `int` channel values are modelled as `ℤ`
(Python integers are unbounded), images as nested lists, and the
`threshold` parameters as `ℚ`.  The true division
`channel_sum / number` inside `_criterion_x` / `_criterion_y` is
modelled as exact division in `ℚ` (Python evaluates it in IEEE double
precision; all claims considered here use small integer data where the
two agree).  Python `//` on integers is floor division, i.e. `Int.fdiv`.

List indexing is modelled with `List.getD` (default `[]` / `0`); for the
well-formed inputs quantified over by the theorems every access is in
bounds, and the separate `checked_*` development below makes Python's
`IndexError` explicit in the `Option` monad to state the memory-safety
claim.  `filter` itself is `Option`-valued because the Python function
unconditionally evaluates `source_image[0]` and `source_image[0][0]`
when reading the sizes, which raises on an empty buffer.

In-place mutation of the nested lists is modelled by functional update
(`List.set`): the Python code only ever rebinds whole pixel entries
(`buffer[y][x] = ...`), never mutates a pixel list element-wise, so the
aliasing produced by `create_image` (each row holds `X` references to
one shared zero pixel) is unobservable and the functional model is
faithful.
-/

/-- A pixel: the list of its integer channel values (L, LA, RGB or RGBA). -/
abbrev Pixel : Type := List ℤ

/-- An image: a list of rows, each row a list of pixels. -/
abbrev Image : Type := List (List Pixel)

/-- `create_image(X, Y, Z)`: 3D nested list of `X * Y * Z` size filled with
zeroes (`[[[0] * Z] * X for y in range(Y)]`). -/
def create_image (X Y Z : ℕ) : Image :=
  List.replicate Y (List.replicate X (List.replicate Z 0))

/-- `_cx_repeat`: x for repeat edge, `min((X - 1), max(0, int(x)))`.
Dead code in the source (kept there "for reference and reuse"). -/
def cx_repeat (X : ℕ) (x : ℤ) : ℤ :=
  min ((X : ℤ) - 1) (max 0 x)

/-- `_cx_wrap`: x for wrap around, `int(x) % X`.  The source installs this
as the resolver `cx` unconditionally (wrap is the default; with overhead 0
it acts as identity).  Loop indices are natural numbers, so Python's `%`
agrees with `Nat.mod`. -/
def cx_wrap (X x : ℕ) : ℕ := x % X

/-- `_cy_repeat`: y for repeat edge (dead code in the source). -/
def cy_repeat (Y : ℕ) (y : ℤ) : ℤ :=
  min ((Y : ℤ) - 1) (max 0 y)

/-- `_cy_wrap`: y for wrap around, `int(y) % Y`; installed as resolver `cy`. -/
def cy_wrap (Y y : ℕ) : ℕ := y % Y

/-- `Z_COLOR = Z if Z == 1 or Z == 3 else min(Z - 1, 3)`. -/
def zcolor (Z : ℕ) : ℕ :=
  if Z = 1 ∨ Z = 3 then Z else min (Z - 1) 3

/-- The overhead pair `(x_overhead, y_overhead)`: `(X, Y)` when
`wrap_around` else `(0, 0)`. -/
def overheads (wrap_around : Bool) (X Y : ℕ) : ℕ × ℕ :=
  if wrap_around then (X, Y) else (0, 0)

/-- `_criterion_x` / `_criterion_y`: single-channel threshold criterion
`abs(channel - (channel_sum / number)) > threshold`, with the true
division taken in `ℚ`. -/
def criterion (threshold : ℚ) (number : ℕ) (channel channel_sum : ℤ) : Bool :=
  decide (|(channel : ℚ) - (channel_sum : ℚ) / (number : ℚ)| > threshold)

/-- `any(map(_criterion, pixel[:Z_COLOR], pixels_sum[:Z_COLOR]))`:
Python's two-argument `map` zips to the shorter list. -/
def breach (threshold : ℚ) (number zc : ℕ) (pixel pixels_sum : Pixel) : Bool :=
  (List.zipWith (criterion threshold number) (pixel.take zc) (pixels_sum.take zc)).any id

/-- `pixels_sum = [*map(add, pixel, pixels_sum)]`: channel-wise sum. -/
def pixels_sum_update (pixel pixels_sum : Pixel) : Pixel :=
  List.zipWith (· + ·) pixel pixels_sum

/-- `average_pixel = [*map(floordiv, pixels_sum, (number,) * Z)]`:
channel-wise floor division of the run sum by the run length. -/
def average_pixel (pixels_sum : Pixel) (number Z : ℕ) : Pixel :=
  List.zipWith (fun a b => Int.fdiv a b) pixels_sum (List.replicate Z ((number : ℤ)))

/-- The transient per-scanline run state of the filter:
`x_start`/`y_start`, `number`, `pixel`, `pixels_sum`. -/
structure RunState where
  start : ℕ
  number : ℕ
  pixel : Pixel
  pixels_sum : Pixel
  deriving Repr, DecidableEq

/-- `for i in range(lo, hi): buffer[cx(i)] = avg` — the flush of a
horizontal run into a row buffer. -/
def flush (X : ℕ) (avg : Pixel) (buf : List Pixel) (lo hi : ℕ) : List Pixel :=
  (List.range' lo (hi - lo)).foldl (fun b i => b.set (cx_wrap X i) avg) buf

/-- One iteration of the horizontal inner loop (`for x in range(0, X + x_overhead, 1)`):
accumulate, read `source[cy(y)][cx(x)]`, test the breach criterion, flush and
re-seed on breach, and always write the edge pixel at `cx(x)`. -/
def scan_step (row : List Pixel) (X : ℕ) (threshold : ℚ) (zc Z : ℕ)
    (sb : RunState × List Pixel) (x : ℕ) : RunState × List Pixel :=
  let s := sb.1
  let number := s.number + 1
  let pixels_sum := pixels_sum_update s.pixel s.pixels_sum
  let pixel := row.getD (cx_wrap X x) []
  if breach threshold number zc pixel pixels_sum then
    let avg := average_pixel pixels_sum number Z
    let buf := flush X avg sb.2 s.start (x - 1)
    (⟨x, 1, pixel, pixel⟩, buf.set (cx_wrap X x) pixel)
  else
    (⟨s.start, number, pixel, pixels_sum⟩, sb.2.set (cx_wrap X x) pixel)

/-- The horizontal inner loop over one row `y`: seed the run state from
`source_image[cy(y)][0]`, then fold `scan_step` over
`range(0, X + x_overhead)`; returns the updated row of the intermediate
image (all writes of the `y`-iteration target `intermediate_image[y]`). -/
def scan_line (row : List Pixel) (X ov : ℕ) (threshold : ℚ) (zc Z : ℕ)
    (init : List Pixel) : List Pixel :=
  let pixel := row.getD 0 []
  ((List.range (X + ov)).foldl (scan_step row X threshold zc Z)
    (⟨0, 1, pixel, pixel⟩, init)).2

/-- The horizontal pass: `for y in range(0, Y, 1)` running the inner loop on
row `source_image[cy(y)]` and writing into row `y` of the intermediate image. -/
def horizontal_pass (source_image : Image) (Y X ov : ℕ) (threshold : ℚ)
    (zc Z : ℕ) (inter : Image) : Image :=
  (List.range Y).foldl
    (fun im y =>
      im.set y (scan_line (source_image.getD (cy_wrap Y y) []) X ov threshold zc Z
        (im.getD y []))) inter

/-- Read `im[r][c]`. -/
def get2 (im : Image) (r c : ℕ) : Pixel :=
  (im.getD r []).getD c []

/-- Write `im[r][c] = v` (functional update). -/
def set2 (im : Image) (r c : ℕ) (v : Pixel) : Image :=
  im.set r ((im.getD r []).set c v)

/-- `for i in range(lo, hi): result_image[cy(i)][x] = avg` — the flush of a
vertical run into column `x` of the result image. -/
def vflush (Y x : ℕ) (avg : Pixel) (im : Image) (lo hi : ℕ) : Image :=
  (List.range' lo (hi - lo)).foldl (fun b i => set2 b (cy_wrap Y i) x avg) im

/-- One iteration of the vertical inner loop (`for y in range(0, Y + y_overhead, 1)`). -/
def vertical_step (inter : Image) (Y X : ℕ) (threshold : ℚ) (zc Z x : ℕ)
    (sb : RunState × Image) (y : ℕ) : RunState × Image :=
  let s := sb.1
  let number := s.number + 1
  let pixels_sum := pixels_sum_update s.pixel s.pixels_sum
  let pixel := get2 inter (cy_wrap Y y) (cx_wrap X x)
  if breach threshold number zc pixel pixels_sum then
    let avg := average_pixel pixels_sum number Z
    let buf := vflush Y x avg sb.2 s.start (y - 1)
    (⟨y, 1, pixel, pixel⟩, set2 buf (cy_wrap Y y) x pixel)
  else
    (⟨s.start, number, pixel, pixels_sum⟩, set2 sb.2 (cy_wrap Y y) x pixel)

/-- The vertical inner loop over one column `x`: seed the run state from
`intermediate_image[0][cx(x)]`, then fold `vertical_step` over
`range(0, Y + y_overhead)`. -/
def vertical_line (inter : Image) (Y X ov : ℕ) (threshold : ℚ) (zc Z x : ℕ)
    (res : Image) : Image :=
  let pixel := get2 inter 0 (cx_wrap X x)
  ((List.range (Y + ov)).foldl (vertical_step inter Y X threshold zc Z x)
    (⟨0, 1, pixel, pixel⟩, res)).2

/-- The vertical pass: `for x in range(0, X, 1)` running the inner loop
down column `x`. -/
def vertical_pass (inter : Image) (Y X ov : ℕ) (threshold : ℚ) (zc Z : ℕ)
    (res : Image) : Image :=
  (List.range X).foldl (fun im x => vertical_line inter Y X ov threshold zc Z x im) res

/-- `[[[*result_image[y][x][:Z_COLOR], source_image[y][x][Z_COLOR]] for x in
range(X)] for y in range(Y)]` — the `keep_alpha` rebuild: colors from the
filtered result, alpha verbatim from the source. -/
def keep_alpha_image (result_image source_image : Image) (Y X zc : ℕ) : Image :=
  (List.range Y).map fun y => (List.range X).map fun x =>
    (get2 result_image y x).take zc ++ [(get2 source_image y x).getD zc 0]

/-- `filter(source_image, threshold_x, threshold_y, wrap_around, keep_alpha)`.
`none` models the `IndexError` Python raises while reading
`len(source_image[0])` / `len(source_image[0][0])` on a zero-sized buffer;
the body performs no other validation, exactly like the source. -/
def filter (source_image : Image) (threshold_x threshold_y : ℚ)
    (wrap_around : Bool) (keep_alpha : Bool) : Option Image := do
  let row0 ← source_image.head?
  let pix0 ← row0.head?
  let Y := source_image.length
  let X := row0.length
  let Z := pix0.length
  let Z_COLOR := zcolor Z
  let ovs := overheads wrap_around X Y
  let intermediate_image :=
    horizontal_pass source_image Y X ovs.1 threshold_x Z_COLOR Z (create_image X Y Z)
  let result_image :=
    vertical_pass intermediate_image Y X ovs.2 threshold_y Z_COLOR Z (create_image X Y Z)
  if Z = 1 ∨ Z = 3 then
    pure result_image
  else if keep_alpha then
    pure (keep_alpha_image result_image source_image Y X Z_COLOR)
  else
    pure result_image

/-- Column `x` of an image. -/
def getcol (im : Image) (x : ℕ) : List Pixel :=
  im.map (fun row => row.getD x [])

/-- Replace column `x` of an image. -/
def setcol (im : Image) (x : ℕ) (col : List Pixel) : Image :=
  List.zipWith (fun row v => row.set x v) im col

/-- The transpose of an image of width `W`: row `x` of the transpose is
column `x` of the image. -/
def transposeImg (W : ℕ) (im : Image) : Image :=
  (List.range W).map (getcol im)

/-!
## Bounds-checked variant

The same code as `filter` with every list subscript bounds-checked in the
`Option` monad: `none` is Python's `IndexError`.  Proving the checked
variant equal to `filter` on well-formed inputs is the memory-safety
statement — no access ever goes out of range.
-/

/-- Bounds-checked subscript read (`l[i]` raises `IndexError` out of range). -/
def checked_get {α : Type} (l : List α) (i : ℕ) : Option α :=
  l[i]?

/-- Bounds-checked subscript write (`l[i] = v` raises `IndexError` out of range). -/
def checked_set {α : Type} (l : List α) (i : ℕ) (v : α) : Option (List α) :=
  if i < l.length then some (l.set i v) else none

/-- Bounds-checked `for i in range(lo, hi): buffer[cx(i)] = avg`. -/
def checked_flush (X : ℕ) (avg : Pixel) (buf : List Pixel) (lo hi : ℕ) :
    Option (List Pixel) :=
  (List.range' lo (hi - lo)).foldlM (fun b i => checked_set b (cx_wrap X i) avg) buf

/-- Bounds-checked `scan_step`. -/
def checked_scan_step (row : List Pixel) (X : ℕ) (threshold : ℚ) (zc Z : ℕ)
    (sb : RunState × List Pixel) (x : ℕ) : Option (RunState × List Pixel) := do
  let s := sb.1
  let number := s.number + 1
  let pixels_sum := pixels_sum_update s.pixel s.pixels_sum
  let pixel ← checked_get row (cx_wrap X x)
  if breach threshold number zc pixel pixels_sum then
    let avg := average_pixel pixels_sum number Z
    let buf ← checked_flush X avg sb.2 s.start (x - 1)
    let buf2 ← checked_set buf (cx_wrap X x) pixel
    pure (⟨x, 1, pixel, pixel⟩, buf2)
  else
    let buf2 ← checked_set sb.2 (cx_wrap X x) pixel
    pure (⟨s.start, number, pixel, pixels_sum⟩, buf2)

/-- Bounds-checked `scan_line`. -/
def checked_scan_line (row : List Pixel) (X ov : ℕ) (threshold : ℚ) (zc Z : ℕ)
    (init : List Pixel) : Option (List Pixel) := do
  let pixel ← checked_get row 0
  let sb ← (List.range (X + ov)).foldlM (checked_scan_step row X threshold zc Z)
    (⟨0, 1, pixel, pixel⟩, init)
  pure sb.2

/-- Bounds-checked `horizontal_pass`. -/
def checked_horizontal_pass (source_image : Image) (Y X ov : ℕ) (threshold : ℚ)
    (zc Z : ℕ) (inter : Image) : Option Image :=
  (List.range Y).foldlM (fun im y => do
    let srow ← checked_get source_image (cy_wrap Y y)
    let irow ← checked_get im y
    let row ← checked_scan_line srow X ov threshold zc Z irow
    checked_set im y row) inter

/-- Bounds-checked `get2`. -/
def checked_get2 (im : Image) (r c : ℕ) : Option Pixel := do
  let row ← checked_get im r
  checked_get row c

/-- Bounds-checked `set2`. -/
def checked_set2 (im : Image) (r c : ℕ) (v : Pixel) : Option Image := do
  let row ← checked_get im r
  let row2 ← checked_set row c v
  checked_set im r row2

/-- Bounds-checked `vflush`. -/
def checked_vflush (Y x : ℕ) (avg : Pixel) (im : Image) (lo hi : ℕ) : Option Image :=
  (List.range' lo (hi - lo)).foldlM (fun b i => checked_set2 b (cy_wrap Y i) x avg) im

/-- Bounds-checked `vertical_step`. -/
def checked_vertical_step (inter : Image) (Y X : ℕ) (threshold : ℚ) (zc Z x : ℕ)
    (sb : RunState × Image) (y : ℕ) : Option (RunState × Image) := do
  let s := sb.1
  let number := s.number + 1
  let pixels_sum := pixels_sum_update s.pixel s.pixels_sum
  let pixel ← checked_get2 inter (cy_wrap Y y) (cx_wrap X x)
  if breach threshold number zc pixel pixels_sum then
    let avg := average_pixel pixels_sum number Z
    let buf ← checked_vflush Y x avg sb.2 s.start (y - 1)
    let buf2 ← checked_set2 buf (cy_wrap Y y) x pixel
    pure (⟨y, 1, pixel, pixel⟩, buf2)
  else
    let buf2 ← checked_set2 sb.2 (cy_wrap Y y) x pixel
    pure (⟨s.start, number, pixel, pixels_sum⟩, buf2)

/-- Bounds-checked `vertical_line`. -/
def checked_vertical_line (inter : Image) (Y X ov : ℕ) (threshold : ℚ) (zc Z x : ℕ)
    (res : Image) : Option Image := do
  let pixel ← checked_get2 inter 0 (cx_wrap X x)
  let sb ← (List.range (Y + ov)).foldlM (checked_vertical_step inter Y X threshold zc Z x)
    (⟨0, 1, pixel, pixel⟩, res)
  pure sb.2

/-- Bounds-checked `vertical_pass`. -/
def checked_vertical_pass (inter : Image) (Y X ov : ℕ) (threshold : ℚ) (zc Z : ℕ)
    (res : Image) : Option Image :=
  (List.range X).foldlM
    (fun im x => checked_vertical_line inter Y X ov threshold zc Z x im) res

/-- Bounds-checked `keep_alpha_image` (the alpha read
`source_image[y][x][Z_COLOR]` can raise). -/
def checked_keep_alpha_image (result_image source_image : Image) (Y X zc : ℕ) :
    Option Image :=
  (List.range Y).mapM fun y => (List.range X).mapM fun x => do
    let rp ← checked_get2 result_image y x
    let sp ← checked_get2 source_image y x
    let a ← checked_get sp zc
    pure (rp.take zc ++ [a])

/-- Bounds-checked `filter`. -/
def checked_filter (source_image : Image) (threshold_x threshold_y : ℚ)
    (wrap_around : Bool) (keep_alpha : Bool) : Option Image := do
  let row0 ← source_image.head?
  let pix0 ← row0.head?
  let Y := source_image.length
  let X := row0.length
  let Z := pix0.length
  let Z_COLOR := zcolor Z
  let ovs := overheads wrap_around X Y
  let intermediate_image ←
    checked_horizontal_pass source_image Y X ovs.1 threshold_x Z_COLOR Z (create_image X Y Z)
  let result_image ←
    checked_vertical_pass intermediate_image Y X ovs.2 threshold_y Z_COLOR Z (create_image X Y Z)
  if Z = 1 ∨ Z = 3 then
    pure result_image
  else if keep_alpha then
    checked_keep_alpha_image result_image source_image Y X Z_COLOR
  else
    pure result_image

/-- The spec's validity precondition on an input image (§6): positive
height and width, rectangular rows, uniform channel count. -/
def ValidImage (src : Image) (Y X Z : ℕ) : Prop :=
  0 < Y ∧ 0 < X ∧ src.length = Y ∧ (∀ row ∈ src, row.length = X) ∧
    (∀ row ∈ src, ∀ p ∈ row, p.length = Z)

instance (src : Image) (Y X Z : ℕ) : Decidable (ValidImage src Y X Z) := by
  unfold ValidImage
  infer_instance

/-!
## Generic fold and list helpers
-/

/-- Invariant preservation along a `foldl`. -/
lemma foldl_inv {α γ : Type*} (P : α → Prop) (f : α → γ → α) :
    ∀ (l : List γ) (a : α), P a → (∀ a c, c ∈ l → P a → P (f a c)) → P (l.foldl f a) := by
  intro l
  induction l with
  | nil => intro a ha _; exact ha
  | cons c l ih =>
    intro a ha hs
    exact ih (f a c) (hs a c (List.mem_cons_self c l) ha)
      (fun a' c' hc' => hs a' c' (List.mem_cons_of_mem c hc'))

/-- Simulation of one `foldl` by another along a relation. -/
lemma foldl_rel {α β γ : Type*} (R : α → β → Prop) (f : α → γ → α) (g : β → γ → β) :
    ∀ (l : List γ) (a : α) (b : β), R a b →
      (∀ a b c, c ∈ l → R a b → R (f a c) (g b c)) → R (l.foldl f a) (l.foldl g b) := by
  intro l
  induction l with
  | nil => intro a b hab _; exact hab
  | cons c l ih =>
    intro a b hab hs
    exact ih (f a c) (g b c) (hs a b c (List.mem_cons_self c l) hab)
      (fun a' b' c' hc' => hs a' b' c' (List.mem_cons_of_mem c hc'))

/-- Step-counting invariant for a `foldl` over `List.range n`. -/
lemma foldl_range_inv {α : Type*} (P : ℕ → α → Prop) (f : α → ℕ → α) :
    ∀ (n : ℕ) (a : α), P 0 a → (∀ k a, k < n → P k a → P (k + 1) (f a k)) →
      P n ((List.range n).foldl f a) := by
  intro n
  induction n with
  | zero => intro a h0 _; simpa using h0
  | succ n ih =>
    intro a h0 hs
    rw [List.range_succ, List.foldl_append]
    exact hs n _ (Nat.lt_succ_self n)
      (ih a h0 (fun k a hk hP => hs k a (Nat.lt_succ_of_lt hk) hP))

/-- `getD` after `set` at the same, in-bounds index. -/
lemma getD_set_self {α : Type*} (l : List α) (i : ℕ) (v d : α) (h : i < l.length) :
    (l.set i v).getD i d = v := by
  rw [List.getD_eq_getElem _ _ (by simpa using h), List.getElem_set]
  simp

/-- `getD` after `set` at a different index. -/
lemma getD_set_ne {α : Type*} (l : List α) {i j : ℕ} (v d : α) (h : i ≠ j) :
    (l.set i v).getD j d = l.getD j d := by
  rw [List.getD_eq_getElem?_getD, List.getD_eq_getElem?_getD, List.getElem?_set_ne h]

/-- Pointwise `getD`-agreement of two same-length lists survives a `set`. -/
lemma getD_set_congr {α : Type*} (l₁ l₂ : List α) (i j : ℕ) (v d : α)
    (hlen : l₁.length = l₂.length) (h : l₁.getD j d = l₂.getD j d) :
    (l₁.set i v).getD j d = (l₂.set i v).getD j d := by
  rcases eq_or_ne i j with rfl | hne
  · by_cases hi : i < l₁.length
    · rw [getD_set_self _ _ _ _ hi, getD_set_self _ _ _ _ (hlen ▸ hi)]
    · rw [List.set_eq_of_length_le (le_of_not_lt hi),
        List.set_eq_of_length_le (le_of_not_lt (hlen ▸ hi))]
      exact h
  · rw [getD_set_ne _ _ _ hne, getD_set_ne _ _ _ hne]
    exact h

/-- `getD` of a `replicate` in bounds. -/
lemma getD_replicate {α : Type*} {n i : ℕ} (a d : α) (h : i < n) :
    (List.replicate n a).getD i d = a := by
  rw [List.getD_eq_getElem _ _ (by simpa using h), List.getElem_replicate]

/-- `getD` of a `map` in bounds. -/
lemma getD_map {α β : Type*} (f : α → β) (l : List α) (i : ℕ) (d : α) (d' : β)
    (h : i < l.length) : (l.map f).getD i d' = f (l.getD i d) := by
  rw [List.getD_eq_getElem _ _ (by simpa using h), List.getElem_map,
    List.getD_eq_getElem _ _ h]

/-- Two lists are equal when they have equal length and agree on `getD`. -/
lemma list_ext_getD {α : Type*} (l₁ l₂ : List α) (d : α) (hlen : l₁.length = l₂.length)
    (h : ∀ j < l₁.length, l₁.getD j d = l₂.getD j d) : l₁ = l₂ := by
  refine List.ext_getElem hlen (fun n h₁ h₂ => ?_)
  have := h n h₁
  rwa [List.getD_eq_getElem _ _ h₁, List.getD_eq_getElem _ _ h₂] at this

/-- `getD` of `List.range` in bounds. -/
lemma getD_range {n i : ℕ} (h : i < n) : (List.range n).getD i 0 = i := by
  rw [List.getD_eq_getElem _ _ (by simpa using h), List.getElem_range]

/-- The wrap resolver is the identity on in-range indices. -/
lemma cx_wrap_eq_of_lt {X x : ℕ} (h : x < X) : cx_wrap X x = x :=
  Nat.mod_eq_of_lt h

/-- The wrap resolver always lands in range for a non-empty axis. -/
lemma cx_wrap_lt {X : ℕ} (x : ℕ) (h : 0 < X) : cx_wrap X x < X :=
  Nat.mod_lt x h

/-- The vertical wrap resolver is the identity on in-range indices. -/
lemma cy_wrap_eq_of_lt {Y y : ℕ} (h : y < Y) : cy_wrap Y y = y :=
  Nat.mod_eq_of_lt h

/-- The vertical wrap resolver always lands in range for a non-empty axis. -/
lemma cy_wrap_lt {Y : ℕ} (y : ℕ) (h : 0 < Y) : cy_wrap Y y < Y :=
  Nat.mod_lt y h

/-- The two wrap resolvers agree (both reduce an index modulo the axis length). -/
lemma cy_wrap_eq_cx_wrap (Y i : ℕ) : cy_wrap Y i = cx_wrap Y i := rfl

/-!
## Flush lemmas
-/

/-- An empty flush range writes nothing. -/
lemma flush_empty (X : ℕ) (avg : Pixel) (buf : List Pixel) {lo hi : ℕ} (h : hi ≤ lo) :
    flush X avg buf lo hi = buf := by
  unfold flush
  have : hi - lo = 0 := by omega
  simp [this]

/-- Peeling the last write off a flush. -/
lemma flush_concat (X : ℕ) (avg : Pixel) (buf : List Pixel) {lo hi : ℕ} (h : lo ≤ hi) :
    flush X avg buf lo (hi + 1) = (flush X avg buf lo hi).set (cx_wrap X hi) avg := by
  unfold flush
  have h1 : hi + 1 - lo = (hi - lo) + 1 := by omega
  have h2 : lo + 1 * (hi - lo) = hi := by omega
  rw [h1, List.range'_concat, List.foldl_append, h2]
  rfl

/-- Flush preserves buffer length. -/
lemma flush_length (X : ℕ) (avg : Pixel) (buf : List Pixel) (lo hi : ℕ) :
    (flush X avg buf lo hi).length = buf.length := by
  unfold flush
  exact foldl_inv (fun b => b.length = buf.length)
    (fun b i => b.set (cx_wrap X i) avg) (List.range' lo (hi - lo)) buf rfl
    (fun b i _ hb => by simpa using hb)

/-- Every position inside a flush range `[lo, hi) ⊆ [0, X)` receives the average. -/
lemma flush_getD_in (X : ℕ) (avg : Pixel) (buf : List Pixel) {lo hi j : ℕ}
    (hbuf : buf.length = X) (hlo : lo ≤ j) (hj : j < hi) (hhi : hi ≤ X) :
    (flush X avg buf lo hi).getD j [] = avg := by
  obtain ⟨d, rfl⟩ : ∃ d, hi = (j + 1) + d := ⟨hi - (j + 1), by omega⟩
  clear hj
  induction d with
  | zero =>
    rw [flush_concat X avg buf hlo, cx_wrap_eq_of_lt (by omega)]
    exact getD_set_self _ _ _ _ (by rw [flush_length, hbuf]; omega)
  | succ d ih =>
    have hle : lo ≤ j + 1 + d := by omega
    rw [show (j + 1) + (d + 1) = ((j + 1) + d) + 1 by omega, flush_concat X avg buf hle,
      cx_wrap_eq_of_lt (show j + 1 + d < X by omega)]
    rw [getD_set_ne _ _ _ (by omega)]
    exact ih (by omega)

/-- Positions not hit by any resolved flush index are unchanged. -/
lemma flush_getD_out (X : ℕ) (avg : Pixel) (buf : List Pixel) {lo hi j : ℕ}
    (h : ∀ i, lo ≤ i → i < hi → cx_wrap X i ≠ j) :
    (flush X avg buf lo hi).getD j [] = buf.getD j [] := by
  rcases le_or_lt hi lo with hle | hlt
  · rw [flush_empty X avg buf hle]
  · obtain ⟨d, rfl⟩ : ∃ d, hi = (lo + 1) + d := ⟨hi - (lo + 1), by omega⟩
    induction d with
    | zero =>
      rw [flush_concat X avg buf (le_refl lo),
        getD_set_ne _ _ _ (h lo (le_refl lo) (by omega)), flush_empty X avg buf (le_refl lo)]
    | succ d ih =>
      rw [show (lo + 1) + (d + 1) = ((lo + 1) + d) + 1 by omega,
        flush_concat X avg buf (by omega),
        getD_set_ne _ _ _ (h _ (by omega) (by omega))]
      exact ih (fun i h1 h2 => h i h1 (by omega)) (by omega)

/-- Flushing two `getD`-agreeing same-length buffers keeps them agreeing. -/
lemma flush_congr (X : ℕ) (avg : Pixel) (buf₁ buf₂ : List Pixel) (lo hi j : ℕ)
    (hlen : buf₁.length = buf₂.length) (h : buf₁.getD j [] = buf₂.getD j []) :
    (flush X avg buf₁ lo hi).getD j [] = (flush X avg buf₂ lo hi).getD j [] := by
  rcases le_or_lt hi lo with hle | hlt
  · rw [flush_empty X avg buf₁ hle, flush_empty X avg buf₂ hle]; exact h
  · obtain ⟨d, rfl⟩ : ∃ d, hi = (lo + 1) + d := ⟨hi - (lo + 1), by omega⟩
    induction d with
    | zero =>
      rw [flush_concat X avg buf₁ (le_refl lo), flush_concat X avg buf₂ (le_refl lo),
        flush_empty X avg buf₁ (le_refl lo), flush_empty X avg buf₂ (le_refl lo)]
      exact getD_set_congr _ _ _ _ _ _ hlen h
    | succ d ih =>
      rw [show (lo + 1) + (d + 1) = ((lo + 1) + d) + 1 by omega,
        flush_concat X avg buf₁ (by omega), flush_concat X avg buf₂ (by omega)]
      exact getD_set_congr _ _ _ _ _ _
        (by rw [flush_length, flush_length, hlen]) (ih (by omega))

/-- Setting an entry back to its own value is a no-op. -/
lemma set_getD_self {α : Type*} (l : List α) (n : ℕ) (d : α) (h : n < l.length) :
    l.set n (l.getD n d) = l := by
  refine List.ext_getElem (by simp) (fun j h₁ h₂ => ?_)
  rw [List.getElem_set]
  split
  · next heq => subst heq; exact List.getD_eq_getElem l d h₂
  · rfl

/-!
## Scan-step and scan-line lemmas
-/

/-- The run state produced by `scan_step` does not depend on the buffer. -/
lemma scan_step_fst (row : List Pixel) (X : ℕ) (t : ℚ) (zc Z : ℕ)
    (s : RunState) (b₁ b₂ : List Pixel) (x : ℕ) :
    (scan_step row X t zc Z (s, b₁) x).1 = (scan_step row X t zc Z (s, b₂) x).1 := by
  unfold scan_step
  dsimp only
  split <;> rfl

/-- `scan_step` preserves the buffer length. -/
lemma scan_step_snd_length (row : List Pixel) (X : ℕ) (t : ℚ) (zc Z : ℕ)
    (sb : RunState × List Pixel) (x : ℕ) :
    (scan_step row X t zc Z sb x).2.length = sb.2.length := by
  unfold scan_step
  dsimp only
  split <;> simp [flush_length]

/-- `scan_line` preserves the buffer length. -/
lemma scan_line_length (row : List Pixel) (X ov : ℕ) (t : ℚ) (zc Z : ℕ)
    (init : List Pixel) : (scan_line row X ov t zc Z init).length = init.length := by
  unfold scan_line
  have := foldl_inv (fun sb : RunState × List Pixel => sb.2.length = init.length)
    (scan_step row X t zc Z) (List.range (X + ov)) (⟨0, 1, row.getD 0 [], row.getD 0 []⟩, init)
    rfl (fun sb x _ hb => by
      show (scan_step row X t zc Z sb x).2.length = init.length
      rw [scan_step_snd_length]; exact hb)
  exact this

/-- `horizontal_pass` preserves the number of rows. -/
lemma horizontal_pass_length (src : Image) (Y X ov : ℕ) (t : ℚ) (zc Z : ℕ) (I0 : Image) :
    (horizontal_pass src Y X ov t zc Z I0).length = I0.length := by
  unfold horizontal_pass
  exact foldl_inv (fun im => im.length = I0.length)
    (fun im y => im.set y (scan_line (src.getD (cy_wrap Y y) []) X ov t zc Z (im.getD y [])))
    (List.range Y) I0 rfl (fun im y _ h => by simpa using h)

/-- Row `y` of the horizontal pass is the scan of source row `cy(y)` started
from row `y` of the initial buffer. -/
lemma horizontal_pass_getD (src : Image) (Y X ov : ℕ) (t : ℚ) (zc Z : ℕ) (I0 : Image)
    (hlen : I0.length = Y) {y : ℕ} (hy : y < Y) :
    (horizontal_pass src Y X ov t zc Z I0).getD y [] =
      scan_line (src.getD (cy_wrap Y y) []) X ov t zc Z (I0.getD y []) := by
  unfold horizontal_pass
  have main := foldl_range_inv (fun k im => im.length = Y ∧
      (∀ j < k, im.getD j [] =
        scan_line (src.getD (cy_wrap Y j) []) X ov t zc Z (I0.getD j [])) ∧
      (∀ j, k ≤ j → im.getD j [] = I0.getD j []))
    (fun im y => im.set y (scan_line (src.getD (cy_wrap Y y) []) X ov t zc Z (im.getD y [])))
    Y I0 ⟨hlen, fun j hj => absurd hj (Nat.not_lt_zero j), fun j _ => rfl⟩ ?_
  · exact main.2.1 y hy
  · rintro k im hk ⟨him, hdone, htodo⟩
    dsimp only
    refine ⟨by simpa using him, ?_, ?_⟩
    · intro j hj
      rcases Nat.lt_succ_iff_lt_or_eq.mp hj with hj' | rfl
      · rw [getD_set_ne _ _ _ (Nat.ne_of_gt hj')]
        exact hdone j hj'
      · rw [htodo j (le_refl j), getD_set_self _ _ _ _ (him ▸ hk)]
    · intro j hj
      rw [getD_set_ne _ _ _ (by omega)]
      exact htodo j (by omega)

/-!
## Columns of an image

The vertical pass of the source iterates the same inner loop down a column,
reading `intermediate_image[cy(y)][cx(x)]` and writing
`result_image[cy(y)][x]`.  `getcol`/`setcol` extract and replace one column
so that the vertical inner loop can be related to `scan_line` on columns.
-/

lemma getcol_length (im : Image) (x : ℕ) : (getcol im x).length = im.length :=
  List.length_map im _

lemma getcol_getD (im : Image) (x : ℕ) {r : ℕ} (h : r < im.length) :
    (getcol im x).getD r [] = (im.getD r []).getD x [] :=
  getD_map _ im r [] [] h

lemma setcol_length (im : Image) (x : ℕ) (col : List Pixel)
    (h : col.length = im.length) : (setcol im x col).length = im.length := by
  simp [setcol, List.length_zipWith, h]

lemma setcol_getD (im : Image) (x : ℕ) (col : List Pixel) {r : ℕ}
    (hr : r < im.length) (hcol : col.length = im.length) :
    (setcol im x col).getD r [] = (im.getD r []).set x (col.getD r []) := by
  have hr' : r < (setcol im x col).length := by rw [setcol_length im x col hcol]; exact hr
  rw [List.getD_eq_getElem _ _ hr']
  unfold setcol
  rw [List.getElem_zipWith, List.getD_eq_getElem _ _ hr,
    List.getD_eq_getElem _ _ (hcol ▸ hr)]

lemma setcol_getcol_self (im : Image) (x : ℕ)
    (hrows : ∀ row ∈ im, x < row.length) : setcol im x (getcol im x) = im := by
  refine List.ext_getElem (by simp [setcol, getcol, List.length_zipWith]) ?_
  intro n h₁ h₂
  unfold setcol getcol
  rw [List.getElem_zipWith, List.getElem_map]
  exact set_getD_self _ _ _ (hrows _ (List.getElem_mem h₂))

lemma set2_setcol (im : Image) (x : ℕ) (col : List Pixel) {r : ℕ} (v : Pixel)
    (hcol : col.length = im.length) (hr : r < im.length) :
    set2 (setcol im x col) r x v = setcol im x (col.set r v) := by
  unfold set2
  rw [setcol_getD im x col hr hcol, List.set_set]
  refine List.ext_getElem ?_ ?_
  · simp [setcol, List.length_zipWith, hcol]
  · intro n h₁ h₂
    rw [List.getElem_set]
    split
    · next heq =>
      subst heq
      unfold setcol
      rw [List.getElem_zipWith,
        List.getElem_set_self (by rw [List.length_set]; exact hcol ▸ hr),
        List.getD_eq_getElem _ _ hr]
    · next hne =>
      unfold setcol
      simp only [List.getElem_zipWith]
      rw [List.getElem_set_ne hne]

lemma getcol_setcol_self (im : Image) (x : ℕ) (col : List Pixel)
    (hcol : col.length = im.length) (hrows : ∀ row ∈ im, x < row.length) :
    getcol (setcol im x col) x = col := by
  refine List.ext_getElem (by simp [setcol, getcol, List.length_zipWith, hcol]) ?_
  intro n h₁ h₂
  have hn : n < im.length := by
    simpa [setcol, getcol, List.length_zipWith, hcol] using h₂
  unfold getcol setcol
  rw [List.getElem_map, List.getElem_zipWith]
  have hx : x < im[n].length := hrows _ (List.getElem_mem hn)
  rw [List.getD_eq_getElem _ _ (by simpa using hx), List.getElem_set_self (by simpa using hx)]

lemma getcol_setcol_ne (im : Image) {x c : ℕ} (col : List Pixel)
    (hc : c ≠ x) (hcol : col.length = im.length) :
    getcol (setcol im x col) c = getcol im c := by
  refine List.ext_getElem (by simp [setcol, getcol, List.length_zipWith, hcol]) ?_
  intro n h₁ h₂
  unfold getcol setcol
  rw [List.getElem_map, List.getElem_map, List.getElem_zipWith]
  rw [List.getD_eq_getElem?_getD, List.getD_eq_getElem?_getD,
    List.getElem?_set_ne (fun h => hc h.symm)]

lemma setcol_rows_length (im : Image) (x X : ℕ) (col : List Pixel)
    (hrows : ∀ row ∈ im, row.length = X) :
    ∀ row ∈ setcol im x col, row.length = X := by
  intro row hrow
  unfold setcol at hrow
  rw [List.mem_iff_getElem] at hrow
  obtain ⟨i, hi, rfl⟩ := hrow
  rw [List.getElem_zipWith, List.length_set]
  exact hrows _ (List.getElem_mem _)

/-!
## The vertical inner loop is `scan_line` on a column
-/

lemma vflush_empty (Y x : ℕ) (avg : Pixel) (im : Image) {lo hi : ℕ} (h : hi ≤ lo) :
    vflush Y x avg im lo hi = im := by
  unfold vflush
  have : hi - lo = 0 := by omega
  simp [this]

lemma vflush_concat (Y x : ℕ) (avg : Pixel) (im : Image) {lo hi : ℕ} (h : lo ≤ hi) :
    vflush Y x avg im lo (hi + 1) = set2 (vflush Y x avg im lo hi) (cy_wrap Y hi) x avg := by
  unfold vflush
  have h1 : hi + 1 - lo = (hi - lo) + 1 := by omega
  have h2 : lo + 1 * (hi - lo) = hi := by omega
  rw [h1, List.range'_concat, List.foldl_append, h2]
  rfl

/-- Flushing a vertical run down column `x` is flushing the column. -/
lemma vflush_setcol (Y x : ℕ) (avg : Pixel) (im : Image) (col : List Pixel)
    (lo hi : ℕ) (hY : 0 < Y) (him : im.length = Y) (hcol : col.length = Y) :
    vflush Y x avg (setcol im x col) lo hi = setcol im x (flush Y avg col lo hi) := by
  rcases le_or_lt hi lo with hle | hlt
  · rw [vflush_empty Y x avg _ hle, flush_empty Y avg col hle]
  · obtain ⟨d, rfl⟩ : ∃ d, hi = (lo + 1) + d := ⟨hi - (lo + 1), by omega⟩
    induction d with
    | zero =>
      rw [vflush_concat Y x avg _ (le_refl lo), flush_concat Y avg col (le_refl lo),
        vflush_empty Y x avg _ (le_refl lo), flush_empty Y avg col (le_refl lo)]
      exact set2_setcol im x col avg (hcol.trans him.symm)
        (by rw [him]; exact cy_wrap_lt lo hY)
    | succ d ih =>
      rw [show (lo + 1) + (d + 1) = ((lo + 1) + d) + 1 by omega,
        vflush_concat Y x avg _ (by omega), flush_concat Y avg col (by omega),
        ih (by omega)]
      exact set2_setcol im x _ avg (by rw [flush_length, hcol, him])
        (by rw [him]; exact cy_wrap_lt _ hY)

/-- One step of the vertical inner loop down column `x` is one `scan_step`
on the column. -/
lemma vertical_step_eq (inter : Image) (Y X : ℕ) (t : ℚ) (zc Z x : ℕ)
    (s : RunState) (im : Image) (col : List Pixel) (y : ℕ)
    (hY : 0 < Y) (hx : x < X) (hI : inter.length = Y)
    (him : im.length = Y) (hcol : col.length = Y) :
    vertical_step inter Y X t zc Z x (s, setcol im x col) y =
      ((scan_step (getcol inter x) Y t zc Z (s, col) y).1,
        setcol im x (scan_step (getcol inter x) Y t zc Z (s, col) y).2) := by
  have hread : get2 inter (cy_wrap Y y) (cx_wrap X x) =
      (getcol inter x).getD (cy_wrap Y y) [] := by
    rw [getcol_getD inter x (by rw [hI]; exact cy_wrap_lt y hY)]
    unfold get2
    rw [cx_wrap_eq_of_lt hx]
  unfold vertical_step scan_step
  dsimp only
  rw [hread]
  simp only [cy_wrap_eq_cx_wrap]
  by_cases hbr : breach t (s.number + 1) zc ((getcol inter x).getD (cx_wrap Y y) [])
      (pixels_sum_update s.pixel s.pixels_sum) = true
  · simp only [if_pos hbr]
    rw [vflush_setcol Y x _ im col _ _ hY him hcol]
    rw [set2_setcol im x _ _ (by rw [flush_length, hcol, him])
      (by rw [him]; exact cx_wrap_lt y hY)]
  · simp only [if_neg hbr]
    rw [set2_setcol im x col _ (hcol.trans him.symm)
      (by rw [him]; exact cx_wrap_lt y hY)]

/-- The vertical inner loop down column `x` equals `scan_line` applied to
column `x` of the input, writing back into column `x` of the buffer. -/
lemma vertical_line_eq (inter : Image) (Y X ov : ℕ) (t : ℚ) (zc Z x : ℕ)
    (B : Image) (hY : 0 < Y) (hx : x < X) (hI : inter.length = Y)
    (hB : B.length = Y) (hrows : ∀ row ∈ B, row.length = X) :
    vertical_line inter Y X ov t zc Z x B =
      setcol B x (scan_line (getcol inter x) Y ov t zc Z (getcol B x)) := by
  have hseed : get2 inter 0 (cx_wrap X x) = (getcol inter x).getD 0 [] := by
    rw [getcol_getD inter x (by omega)]
    unfold get2
    rw [cx_wrap_eq_of_lt hx]
  unfold vertical_line scan_line
  dsimp only
  rw [hseed]
  set p0 := (getcol inter x).getD 0 [] with hp0
  have hcols : ∀ row ∈ B, x < row.length := fun row hrow => (hrows row hrow) ▸ hx
  have hrel := foldl_rel
    (fun (a : RunState × Image) (b : RunState × List Pixel) =>
      a.1 = b.1 ∧ b.2.length = Y ∧ a.2 = setcol B x b.2)
    (vertical_step inter Y X t zc Z x) (scan_step (getcol inter x) Y t zc Z)
    (List.range (Y + ov)) (⟨0, 1, p0, p0⟩, B) (⟨0, 1, p0, p0⟩, getcol B x)
    ⟨rfl, by rw [getcol_length, hB], (setcol_getcol_self B x hcols).symm⟩ ?_
  · exact hrel.2.2
  · rintro ⟨s₁, im₁⟩ ⟨s₂, col₂⟩ y _ ⟨hs, hlen, hset⟩
    dsimp only at hs hlen hset ⊢
    subst hs hset
    rw [vertical_step_eq inter Y X t zc Z x s₁ B col₂ y hY hx hI hB hlen]
    exact ⟨rfl, by rw [scan_step_snd_length]; exact hlen, rfl⟩

/-- Shape and column characterisation of the vertical pass: it has the shape
of its initial buffer and every column `c < X` is the `scan_line` of the
corresponding input column. -/
lemma vertical_pass_cols (inter : Image) (Y X ov : ℕ) (t : ℚ) (zc Z : ℕ)
    (B0 : Image) (hY : 0 < Y) (hI : inter.length = Y)
    (hB : B0.length = Y) (hrows : ∀ row ∈ B0, row.length = X) :
    (vertical_pass inter Y X ov t zc Z B0).length = Y ∧
      (∀ row ∈ vertical_pass inter Y X ov t zc Z B0, row.length = X) ∧
      (∀ c < X, getcol (vertical_pass inter Y X ov t zc Z B0) c =
        scan_line (getcol inter c) Y ov t zc Z (getcol B0 c)) := by
  unfold vertical_pass
  have main := foldl_range_inv (fun k im => im.length = Y ∧
      (∀ row ∈ im, row.length = X) ∧
      (∀ c < X, c < k → getcol im c =
        scan_line (getcol inter c) Y ov t zc Z (getcol B0 c)) ∧
      (∀ c, k ≤ c → getcol im c = getcol B0 c))
    (fun im x => vertical_line inter Y X ov t zc Z x im)
    X B0 ⟨hB, hrows, fun c _ hc => absurd hc (Nat.not_lt_zero c), fun c _ => rfl⟩ ?_
  · exact ⟨main.1, main.2.1, fun c hc => main.2.2.1 c hc hc⟩
  · rintro k im hk ⟨him, hrows', hdone, htodo⟩
    dsimp only
    rw [vertical_line_eq inter Y X ov t zc Z k im hY hk hI him hrows']
    have hcollen : (scan_line (getcol inter k) Y ov t zc Z (getcol im k)).length = Y := by
      rw [scan_line_length, getcol_length, him]
    refine ⟨by rw [setcol_length _ _ _ (by rw [hcollen, him])]; exact him,
      setcol_rows_length im k X _ hrows', ?_, ?_⟩
    · intro c hc hck
      rcases Nat.lt_succ_iff_lt_or_eq.mp hck with hck' | rfl
      · rw [getcol_setcol_ne im _ (by omega) (by rw [hcollen, him])]
        exact hdone c hc hck'
      · rw [getcol_setcol_self im c _ (by rw [hcollen, him])
          (fun row hrow => (hrows' row hrow) ▸ hc), htodo c (le_refl c)]
    · intro c hc
      rw [getcol_setcol_ne im _ (by omega) (by rw [hcollen, him])]
      exact htodo c (by omega)

/-!
## Independence of the pass output from the initial buffer contents

Each pass state never reads the buffer it writes, and the unconditional
per-position write covers every in-range position, so the zero fill of
`create_image` is unobservable.
-/

/-- Step-counting simulation of two `foldl`s over `List.range n`. -/
lemma foldl_range_rel {α β : Type*} (R : ℕ → α → β → Prop) (f : α → ℕ → α)
    (g : β → ℕ → β) :
    ∀ (n : ℕ) (a : α) (b : β), R 0 a b →
      (∀ k a b, k < n → R k a b → R (k + 1) (f a k) (g b k)) →
      R n ((List.range n).foldl f a) ((List.range n).foldl g b) := by
  intro n
  induction n with
  | zero => intro a b h0 _; simpa using h0
  | succ n ih =>
    intro a b h0 hs
    rw [List.range_succ, List.foldl_append, List.foldl_append]
    exact hs n _ _ (Nat.lt_succ_self n)
      (ih a b h0 (fun k a b hk hR => hs k a b (Nat.lt_succ_of_lt hk) hR))

/-- The output of `scan_line` does not depend on the initial buffer contents
(for buffers of the right length). -/
lemma scan_line_indep (row : List Pixel) (X ov : ℕ) (t : ℚ) (zc Z : ℕ)
    (init₁ init₂ : List Pixel) (hX : 0 < X)
    (h₁ : init₁.length = X) (h₂ : init₂.length = X) :
    scan_line row X ov t zc Z init₁ = scan_line row X ov t zc Z init₂ := by
  have l₁ := scan_line_length row X ov t zc Z init₁
  have l₂ := scan_line_length row X ov t zc Z init₂
  unfold scan_line at l₁ l₂ ⊢
  dsimp only at l₁ l₂ ⊢
  have main := foldl_range_rel
    (fun k (a b : RunState × List Pixel) => a.1 = b.1 ∧ a.2.length = X ∧ b.2.length = X ∧
      ∀ j < min k X, a.2.getD j [] = b.2.getD j [])
    (scan_step row X t zc Z) (scan_step row X t zc Z) (X + ov)
    (⟨0, 1, row.getD 0 [], row.getD 0 []⟩, init₁)
    (⟨0, 1, row.getD 0 [], row.getD 0 []⟩, init₂)
    ⟨rfl, h₁, h₂, fun j hj => absurd hj (by omega)⟩ ?_
  · refine list_ext_getD _ _ [] (by rw [l₁, l₂, h₁, h₂]) ?_
    intro j hj
    rw [l₁, h₁] at hj
    exact main.2.2.2 j (by omega)
  · rintro k ⟨s₁, b₁⟩ ⟨s₂, b₂⟩ hk ⟨hs, hb₁, hb₂, hag⟩
    dsimp only at hs hb₁ hb₂ hag ⊢
    subst hs
    refine ⟨scan_step_fst row X t zc Z s₁ b₁ b₂ k,
      by rw [scan_step_snd_length]; exact hb₁,
      by rw [scan_step_snd_length]; exact hb₂, ?_⟩
    intro j hj
    have hset : ∀ (F₁ F₂ : List Pixel) (p : Pixel), F₁.length = X → F₂.length = X →
        (∀ i < min k X, F₁.getD i [] = F₂.getD i []) →
        (F₁.set (cx_wrap X k) p).getD j [] = (F₂.set (cx_wrap X k) p).getD j [] := by
      intro F₁ F₂ p hF₁ hF₂ hFag
      rcases eq_or_ne (cx_wrap X k) j with heq | hne
      · rw [← heq, getD_set_self _ _ _ _ (by rw [hF₁]; exact cx_wrap_lt k hX),
          getD_set_self _ _ _ _ (by rw [hF₂]; exact cx_wrap_lt k hX)]
      · rw [getD_set_ne _ _ _ hne, getD_set_ne _ _ _ hne]
        refine hFag j ?_
        rcases lt_or_le k X with hkX | hkX
        · rcases Nat.lt_min.mp hj with ⟨hjk, hjX⟩
          have : j ≠ k := fun h => hne (by rw [cx_wrap_eq_of_lt hkX, h])
          omega
        · omega
    unfold scan_step
    dsimp only
    by_cases hbr : breach t (s₁.number + 1) zc (row.getD (cx_wrap X k) [])
        (pixels_sum_update s₁.pixel s₁.pixels_sum) = true
    · simp only [if_pos hbr]
      exact hset _ _ _ (by rw [flush_length]; exact hb₁)
        (by rw [flush_length]; exact hb₂)
        (fun i hi => flush_congr X _ b₁ b₂ _ _ i (hb₁.trans hb₂.symm) (hag i hi))
    · simp only [if_neg hbr]
      exact hset _ _ _ hb₁ hb₂ hag

/-- In-bounds `getD` of a list of lists with uniform lengths. -/
lemma getD_length_of_mem {α : Type*} (l : List (List α)) (n : ℕ)
    (h : ∀ a ∈ l, a.length = n) {i : ℕ} (hi : i < l.length) :
    (l.getD i []).length = n := by
  rw [List.getD_eq_getElem _ _ hi]
  exact h _ (List.getElem_mem hi)

/-- The horizontal pass does not depend on the initial buffer contents. -/
lemma horizontal_pass_indep (src : Image) (Y X ov : ℕ) (t : ℚ) (zc Z : ℕ)
    (I₁ I₂ : Image) (hX : 0 < X) (hl₁ : I₁.length = Y) (hl₂ : I₂.length = Y)
    (hr₁ : ∀ row ∈ I₁, row.length = X) (hr₂ : ∀ row ∈ I₂, row.length = X) :
    horizontal_pass src Y X ov t zc Z I₁ = horizontal_pass src Y X ov t zc Z I₂ := by
  refine list_ext_getD _ _ []
    (by rw [horizontal_pass_length, horizontal_pass_length, hl₁, hl₂]) ?_
  intro y hy
  rw [horizontal_pass_length, hl₁] at hy
  rw [horizontal_pass_getD src Y X ov t zc Z I₁ hl₁ hy,
    horizontal_pass_getD src Y X ov t zc Z I₂ hl₂ hy]
  exact scan_line_indep _ X ov t zc Z _ _ hX
    (getD_length_of_mem I₁ X hr₁ (by rw [hl₁]; exact hy))
    (getD_length_of_mem I₂ X hr₂ (by rw [hl₂]; exact hy))

/-- The vertical pass does not depend on the initial buffer contents. -/
lemma vertical_pass_indep (inter : Image) (Y X ov : ℕ) (t : ℚ) (zc Z : ℕ)
    (R₁ R₂ : Image) (hY : 0 < Y) (hI : inter.length = Y)
    (hl₁ : R₁.length = Y) (hl₂ : R₂.length = Y)
    (hr₁ : ∀ row ∈ R₁, row.length = X) (hr₂ : ∀ row ∈ R₂, row.length = X) :
    vertical_pass inter Y X ov t zc Z R₁ = vertical_pass inter Y X ov t zc Z R₂ := by
  obtain ⟨hL₁, hRow₁, hC₁⟩ := vertical_pass_cols inter Y X ov t zc Z R₁ hY hI hl₁ hr₁
  obtain ⟨hL₂, hRow₂, hC₂⟩ := vertical_pass_cols inter Y X ov t zc Z R₂ hY hI hl₂ hr₂
  refine list_ext_getD _ _ [] (by rw [hL₁, hL₂]) ?_
  intro y hy
  rw [hL₁] at hy
  refine list_ext_getD _ _ []
    (by rw [getD_length_of_mem _ X hRow₁ (by rw [hL₁]; exact hy),
      getD_length_of_mem _ X hRow₂ (by rw [hL₂]; exact hy)]) ?_
  intro x hx
  rw [getD_length_of_mem _ X hRow₁ (by rw [hL₁]; exact hy)] at hx
  rw [← getcol_getD _ x (by rw [hL₁]; exact hy), ← getcol_getD _ x (by rw [hL₂]; exact hy),
    hC₁ x hx, hC₂ x hx,
    scan_line_indep _ Y ov t zc Z (getcol R₁ x) (getcol R₂ x) hY
      (by rw [getcol_length, hl₁]) (by rw [getcol_length, hl₂])]

/-!
## Uniform images and always-breaching thresholds
-/

/-- A channel never deviates from the average of copies of itself. -/
lemma criterion_self (t : ℚ) (n : ℕ) (a : ℤ) (hn : 0 < n) (ht : 0 ≤ t) :
    criterion t n a (a * (n : ℤ)) = false := by
  unfold criterion
  rw [decide_eq_false_iff_not]
  have hne : ((n : ℚ)) ≠ 0 := by positivity
  have : ((a * (n : ℤ) : ℤ) : ℚ) / (n : ℚ) = (a : ℚ) := by
    push_cast
    field_simp
  rw [this]
  simp [ht]

/-- Any channel pair meets a negative threshold criterion. -/
lemma criterion_neg (t : ℚ) (n : ℕ) (a b : ℤ) (ht : t < 0) :
    criterion t n a b = true := by
  unfold criterion
  rw [decide_eq_true_eq]
  exact lt_of_lt_of_le ht (abs_nonneg _)

/-- No breach ever fires on a run of identical pixels (threshold ≥ 0). -/
lemma breach_uniform (t : ℚ) (n zc : ℕ) (p : Pixel) (hn : 0 < n) (ht : 0 ≤ t) :
    breach t n zc p (p.map (fun v => v * (n : ℤ))) = false := by
  unfold breach
  rw [← List.map_take, List.zipWith_map_right, List.zipWith_same]
  rw [List.any_eq_false]
  intro b hb
  rw [List.mem_map] at hb
  obtain ⟨a, _, rfl⟩ := hb
  simp [criterion_self t n a hn ht]

/-- A negative threshold breaches at every step (for non-empty channel lists). -/
lemma breach_neg (t : ℚ) (n zc : ℕ) (pixel ps : Pixel) (ht : t < 0)
    (h1 : pixel.take zc ≠ []) (h2 : ps.take zc ≠ []) :
    breach t n zc pixel ps = true := by
  unfold breach
  cases hp : pixel.take zc with
  | nil => exact absurd hp h1
  | cons a l =>
    cases hq : ps.take zc with
    | nil => exact absurd hq h2
    | cons b m =>
      simp [criterion_neg t n a b ht]

/-- The channel-wise sum of a pixel with `n` copies of itself. -/
lemma pixels_sum_update_uniform (p : Pixel) (c : ℤ) :
    pixels_sum_update p (p.map (fun v => v * c)) = p.map (fun v => v * (c + 1)) := by
  unfold pixels_sum_update
  rw [List.zipWith_map_right, List.zipWith_same]
  refine List.map_congr_left ?_
  intro a _
  ring

/-- Scanning a uniform row with a non-negative threshold returns the row:
no breach ever fires and every position receives the uniform pixel. -/
lemma scan_line_uniform (p : Pixel) (X ov : ℕ) (t : ℚ) (zc Z : ℕ)
    (init : List Pixel) (hX : 0 < X) (ht : 0 ≤ t) (hinit : init.length = X) :
    scan_line (List.replicate X p) X ov t zc Z init = List.replicate X p := by
  have hrow : ∀ i, (List.replicate X p).getD (cx_wrap X i) [] = p :=
    fun i => getD_replicate _ _ (cx_wrap_lt i hX)
  have l := scan_line_length (List.replicate X p) X ov t zc Z init
  unfold scan_line at l ⊢
  dsimp only at l ⊢
  have hseed : (List.replicate X p).getD 0 [] = p := getD_replicate _ _ hX
  rw [hseed]
  rw [hseed] at l
  have main := foldl_range_inv
    (fun k (sb : RunState × List Pixel) =>
      sb.1 = ⟨0, k + 1, p, p.map (fun v => v * ((k : ℤ) + 1))⟩ ∧
        sb.2.length = X ∧ ∀ j < min k X, sb.2.getD j [] = p)
    (scan_step (List.replicate X p) X t zc Z) (X + ov) (⟨0, 1, p, p⟩, init)
    ⟨by simp, hinit, fun j hj => absurd hj (by omega)⟩ ?_
  · refine list_ext_getD _ _ [] (by rw [l, hinit, List.length_replicate]) ?_
    intro j hj
    rw [l, hinit] at hj
    rw [main.2.2 j (by omega), getD_replicate _ _ hj]
  · rintro k ⟨s, b⟩ hk ⟨hs, hb, hag⟩
    dsimp only at hs hb hag ⊢
    subst hs
    unfold scan_step
    dsimp only
    rw [pixels_sum_update_uniform p _, hrow k]
    have hbr : breach t (k + 1 + 1) zc p (p.map (fun v => v * ((k : ℤ) + 1 + 1))) = false := by
      have := breach_uniform t (k + 2) zc p (by omega) ht
      have hcast : ((k + 2 : ℕ) : ℤ) = (k : ℤ) + 1 + 1 := by push_cast; ring
      rw [hcast] at this
      rw [show k + 1 + 1 = k + 2 from rfl]
      exact this
    rw [hbr]
    simp only [Bool.false_eq_true, if_false]
    refine ⟨?_, by rw [List.length_set]; exact hb, ?_⟩
    · have hcast : ((k + 1 : ℕ) : ℤ) = (k : ℤ) + 1 := by push_cast; ring
      rw [hcast]
    · intro j hj
      rcases eq_or_ne (cx_wrap X k) j with heq | hne
      · rw [← heq, getD_set_self _ _ _ _ (by rw [hb]; exact cx_wrap_lt k hX)]
      · rw [getD_set_ne _ _ _ hne]
        refine hag j ?_
        rcases lt_or_le k X with hkX | hkX
        · rcases Nat.lt_min.mp hj with ⟨hjk, hjX⟩
          have : j ≠ k := fun h => hne (by rw [cx_wrap_eq_of_lt hkX, h])
          omega
        · omega

/-- An in-bounds `getD` is a member of the list. -/
lemma getD_mem {α : Type*} (l : List α) (d : α) {i : ℕ} (hi : i < l.length) :
    l.getD i d ∈ l := by
  rw [List.getD_eq_getElem _ _ hi]
  exact List.getElem_mem hi

/-- A positive-length prefix of a non-empty list is non-empty. -/
lemma take_ne_nil {α : Type*} (l : List α) {n : ℕ} (hn : 0 < n) (hl : 0 < l.length) :
    l.take n ≠ [] := by
  intro h
  have := congrArg List.length h
  rw [List.length_take] at this
  simp only [List.length_nil] at this
  omega

/-- Scanning any row with a negative threshold returns the row: the criterion
fires at every step, every flush range is empty, and only the literal
per-position writes take effect. -/
lemma scan_line_neg (row : List Pixel) (X ov : ℕ) (t : ℚ) (zc Z : ℕ)
    (init : List Pixel) (hX : 0 < X) (ht : t < 0) (hzc : 0 < zc)
    (hrow : row.length = X) (hpix : ∀ p ∈ row, 0 < p.length)
    (hinit : init.length = X) :
    scan_line row X ov t zc Z init = row := by
  have l := scan_line_length row X ov t zc Z init
  unfold scan_line at l ⊢
  dsimp only at l ⊢
  have main := foldl_range_inv
    (fun k (sb : RunState × List Pixel) =>
      sb.1 = ⟨k - 1, 1, row.getD (cx_wrap X (k - 1)) [], row.getD (cx_wrap X (k - 1)) []⟩ ∧
        sb.2.length = X ∧ ∀ j < min k X, sb.2.getD j [] = row.getD j [])
    (scan_step row X t zc Z) (X + ov)
    (⟨0, 1, row.getD 0 [], row.getD 0 []⟩, init)
    ⟨by simp [cx_wrap], hinit, fun j hj => absurd hj (by omega)⟩ ?_
  · refine list_ext_getD _ _ [] (by rw [l, hinit, hrow]) ?_
    intro j hj
    rw [l, hinit] at hj
    exact main.2.2 j (by omega)
  · rintro k ⟨s, b⟩ hk ⟨hs, hb, hag⟩
    dsimp only at hs hb hag ⊢
    subst hs
    unfold scan_step
    dsimp only
    have hqmem : row.getD (cx_wrap X (k - 1)) [] ∈ row :=
      getD_mem row [] (by rw [hrow]; exact cx_wrap_lt _ hX)
    have hpmem : row.getD (cx_wrap X k) [] ∈ row :=
      getD_mem row [] (by rw [hrow]; exact cx_wrap_lt _ hX)
    have hsumlen : (pixels_sum_update (row.getD (cx_wrap X (k - 1)) [])
        (row.getD (cx_wrap X (k - 1)) [])).length = (row.getD (cx_wrap X (k - 1)) []).length := by
      unfold pixels_sum_update
      rw [List.length_zipWith]
      omega
    have hbr : breach t (1 + 1) zc (row.getD (cx_wrap X k) [])
        (pixels_sum_update (row.getD (cx_wrap X (k - 1)) [])
          (row.getD (cx_wrap X (k - 1)) [])) = true :=
      breach_neg t _ zc _ _ ht
        (take_ne_nil _ hzc (hpix _ hpmem))
        (take_ne_nil _ hzc (by rw [hsumlen]; exact hpix _ hqmem))
    rw [if_pos hbr, flush_empty _ _ _ (le_refl _)]
    refine ⟨by simp, by rw [List.length_set]; exact hb, ?_⟩
    intro j hj
    rcases eq_or_ne (cx_wrap X k) j with heq | hne
    · rw [← heq, getD_set_self _ _ _ _ (by rw [hb]; exact cx_wrap_lt k hX)]
    · rw [getD_set_ne _ _ _ hne]
      refine hag j ?_
      rcases lt_or_le k X with hkX | hkX
      · rcases Nat.lt_min.mp hj with ⟨hjk, hjX⟩
        have : j ≠ k := fun h => hne (by rw [cx_wrap_eq_of_lt hkX, h])
        omega
      · omega

/-- Column of a uniform image. -/
lemma getcol_replicate (Y X : ℕ) (p : Pixel) {x : ℕ} (hx : x < X) :
    getcol (List.replicate Y (List.replicate X p)) x = List.replicate Y p := by
  unfold getcol
  rw [List.map_replicate, getD_replicate _ _ hx]

/-- The horizontal pass leaves a uniform image unchanged (threshold ≥ 0). -/
lemma horizontal_pass_uniform (p : Pixel) (Y X ov : ℕ) (t : ℚ) (zc Z : ℕ)
    (I0 : Image) (hY : 0 < Y) (hX : 0 < X) (ht : 0 ≤ t)
    (hl : I0.length = Y) (hr : ∀ row ∈ I0, row.length = X) :
    horizontal_pass (List.replicate Y (List.replicate X p)) Y X ov t zc Z I0 =
      List.replicate Y (List.replicate X p) := by
  refine list_ext_getD _ _ []
    (by rw [horizontal_pass_length, hl, List.length_replicate]) ?_
  intro y hy
  rw [horizontal_pass_length, hl] at hy
  rw [horizontal_pass_getD _ Y X ov t zc Z I0 hl hy,
    getD_replicate _ _ (cy_wrap_lt y hY),
    scan_line_uniform p X ov t zc Z _ hX ht
      (getD_length_of_mem I0 X hr (by rw [hl]; exact hy)),
    getD_replicate _ _ hy]

/-- The vertical pass leaves a uniform image unchanged (threshold ≥ 0). -/
lemma vertical_pass_uniform (p : Pixel) (Y X ov : ℕ) (t : ℚ) (zc Z : ℕ)
    (R0 : Image) (hY : 0 < Y) (hX : 0 < X) (ht : 0 ≤ t)
    (hl : R0.length = Y) (hr : ∀ row ∈ R0, row.length = X) :
    vertical_pass (List.replicate Y (List.replicate X p)) Y X ov t zc Z R0 =
      List.replicate Y (List.replicate X p) := by
  obtain ⟨hL, hRow, hC⟩ := vertical_pass_cols (List.replicate Y (List.replicate X p))
    Y X ov t zc Z R0 hY (by rw [List.length_replicate]) hl hr
  refine list_ext_getD _ _ [] (by rw [hL, List.length_replicate]) ?_
  intro y hy
  rw [hL] at hy
  refine list_ext_getD _ _ [] (by
    rw [getD_length_of_mem _ X hRow (by rw [hL]; exact hy),
      getD_replicate _ _ hy, List.length_replicate]) ?_
  intro x hx
  rw [getD_length_of_mem _ X hRow (by rw [hL]; exact hy)] at hx
  rw [← getcol_getD _ x (by rw [hL]; exact hy), hC x hx, getcol_replicate Y X p hx,
    scan_line_uniform p Y ov t zc Z _ hY ht (by rw [getcol_length, hl]),
    getD_replicate _ _ hy, getD_replicate _ _ hy, getD_replicate _ _ hx]

/-- The horizontal pass is the identity when the threshold is negative. -/
lemma horizontal_pass_neg (src : Image) (Y X ov : ℕ) (t : ℚ) (zc Z : ℕ)
    (I0 : Image) (hX : 0 < X) (ht : t < 0) (hzc : 0 < zc)
    (hsrc : src.length = Y) (hrows : ∀ row ∈ src, row.length = X)
    (hpix : ∀ row ∈ src, ∀ p ∈ row, 0 < p.length)
    (hl : I0.length = Y) (hr : ∀ row ∈ I0, row.length = X) :
    horizontal_pass src Y X ov t zc Z I0 = src := by
  refine list_ext_getD _ _ [] (by rw [horizontal_pass_length, hl, hsrc]) ?_
  intro y hy
  rw [horizontal_pass_length, hl] at hy
  rw [horizontal_pass_getD src Y X ov t zc Z I0 hl hy, cy_wrap_eq_of_lt hy,
    scan_line_neg _ X ov t zc Z _ hX ht hzc
      (hrows _ (getD_mem src [] (by rw [hsrc]; exact hy)))
      (hpix _ (getD_mem src [] (by rw [hsrc]; exact hy)))
      (getD_length_of_mem I0 X hr (by rw [hl]; exact hy))]

/-- The vertical pass is the identity when the threshold is negative. -/
lemma vertical_pass_neg (inter : Image) (Y X ov : ℕ) (t : ℚ) (zc Z : ℕ)
    (R0 : Image) (hY : 0 < Y) (hX : 0 < X) (ht : t < 0) (hzc : 0 < zc)
    (hI : inter.length = Y) (hrows : ∀ row ∈ inter, row.length = X)
    (hpix : ∀ row ∈ inter, ∀ p ∈ row, 0 < p.length)
    (hl : R0.length = Y) (hr : ∀ row ∈ R0, row.length = X) :
    vertical_pass inter Y X ov t zc Z R0 = inter := by
  obtain ⟨hL, hRow, hC⟩ := vertical_pass_cols inter Y X ov t zc Z R0 hY hI hl hr
  have hcolpix : ∀ x < X, ∀ p ∈ getcol inter x, 0 < p.length := by
    intro x hx p hp
    unfold getcol at hp
    rw [List.mem_map] at hp
    obtain ⟨row, hrowmem, rfl⟩ := hp
    exact hpix row hrowmem _ (getD_mem row [] (by rw [hrows row hrowmem]; exact hx))
  refine list_ext_getD _ _ [] (by rw [hL, hI]) ?_
  intro y hy
  rw [hL] at hy
  refine list_ext_getD _ _ [] (by
    rw [getD_length_of_mem _ X hRow (by rw [hL]; exact hy),
      getD_length_of_mem _ X hrows (by rw [hI]; exact hy)]) ?_
  intro x hx
  rw [getD_length_of_mem _ X hRow (by rw [hL]; exact hy)] at hx
  rw [← getcol_getD _ x (by rw [hL]; exact hy), hC x hx,
    scan_line_neg _ Y ov t zc Z _ hY ht hzc (by rw [getcol_length, hI])
      (hcolpix x hx) (by rw [getcol_length, hl]),
    getcol_getD _ x (by rw [hI]; exact hy)]

/-!
## Reduction of `filter` on non-empty inputs
-/

/-- `filter` on a buffer with no alpha channel returns the vertical-pass
result directly. -/
lemma filter_some_no_alpha (src : Image) (r0 : List Pixel) (p0 : Pixel)
    (tx ty : ℚ) (w k : Bool) (h1 : src.head? = some r0) (h2 : r0.head? = some p0)
    (hz : p0.length = 1 ∨ p0.length = 3) :
    filter src tx ty w k = some (vertical_pass
      (horizontal_pass src src.length r0.length (overheads w r0.length src.length).1 tx
        (zcolor p0.length) p0.length (create_image r0.length src.length p0.length))
      src.length r0.length (overheads w r0.length src.length).2 ty (zcolor p0.length)
      p0.length (create_image r0.length src.length p0.length)) := by
  unfold filter
  rw [h1]
  simp only [Option.bind_eq_bind, Option.some_bind]
  rw [h2]
  simp only [Option.some_bind]
  rw [if_pos hz]
  rfl

/-- `filter` with an alpha channel and `keep_alpha = true` rebuilds the
result with the source alpha plane. -/
lemma filter_some_keep_alpha (src : Image) (r0 : List Pixel) (p0 : Pixel)
    (tx ty : ℚ) (w : Bool) (h1 : src.head? = some r0) (h2 : r0.head? = some p0)
    (hz : ¬(p0.length = 1 ∨ p0.length = 3)) :
    filter src tx ty w true = some (keep_alpha_image
      (vertical_pass
        (horizontal_pass src src.length r0.length (overheads w r0.length src.length).1 tx
          (zcolor p0.length) p0.length (create_image r0.length src.length p0.length))
        src.length r0.length (overheads w r0.length src.length).2 ty (zcolor p0.length)
        p0.length (create_image r0.length src.length p0.length))
      src src.length r0.length (zcolor p0.length)) := by
  unfold filter
  rw [h1]
  simp only [Option.bind_eq_bind, Option.some_bind]
  rw [h2]
  simp only [Option.some_bind]
  rw [if_neg hz, if_pos trivial]
  rfl

/-- `filter` with an alpha channel and `keep_alpha = false` returns the
vertical-pass result directly. -/
lemma filter_some_no_keep (src : Image) (r0 : List Pixel) (p0 : Pixel)
    (tx ty : ℚ) (w : Bool) (h1 : src.head? = some r0) (h2 : r0.head? = some p0)
    (hz : ¬(p0.length = 1 ∨ p0.length = 3)) :
    filter src tx ty w false = some (vertical_pass
      (horizontal_pass src src.length r0.length (overheads w r0.length src.length).1 tx
        (zcolor p0.length) p0.length (create_image r0.length src.length p0.length))
      src.length r0.length (overheads w r0.length src.length).2 ty (zcolor p0.length)
      p0.length (create_image r0.length src.length p0.length)) := by
  unfold filter
  rw [h1]
  simp only [Option.bind_eq_bind, Option.some_bind]
  rw [h2]
  simp only [Option.some_bind]
  rw [if_neg hz]
  rfl

/-!
## Alpha-rebuild lemmas
-/

lemma keep_alpha_image_length (res src : Image) (Y X zc : ℕ) :
    (keep_alpha_image res src Y X zc).length = Y := by
  simp [keep_alpha_image]

lemma keep_alpha_image_rows (res src : Image) (Y X zc : ℕ) :
    ∀ row ∈ keep_alpha_image res src Y X zc, row.length = X := by
  intro row hrow
  unfold keep_alpha_image at hrow
  rw [List.mem_map] at hrow
  obtain ⟨y, _, rfl⟩ := hrow
  simp

lemma keep_alpha_image_get2 (res src : Image) (Y X zc : ℕ) {y x : ℕ}
    (hy : y < Y) (hx : x < X) :
    get2 (keep_alpha_image res src Y X zc) y x =
      (get2 res y x).take zc ++ [(get2 src y x).getD zc 0] := by
  unfold keep_alpha_image get2
  rw [getD_map _ _ _ 0 _ (by simpa using hy), getD_range hy,
    getD_map _ _ _ 0 _ (by simpa using hx), getD_range hx]

/-- Putting back the length-`zc` colour prefix and the channel at index `zc`
reassembles a pixel of length `zc + 1`. -/
lemma take_getD_append (p : Pixel) (zc : ℕ) (h : p.length = zc + 1) :
    p.take zc ++ [p.getD zc 0] = p := by
  conv_rhs => rw [← List.take_append_drop zc p]
  congr 1
  rw [List.drop_eq_getElem_cons (by omega), List.getD_eq_getElem _ _ (by omega)]
  congr 1
  symm
  rw [List.drop_eq_nil_iff]
  omega

/-- Rebuilding an image from its own colour and alpha planes is the
identity (pixels of length `zc + 1`). -/
lemma keep_alpha_image_self (src : Image) (Y X zc : ℕ)
    (hlen : src.length = Y) (hrows : ∀ row ∈ src, row.length = X)
    (hpix : ∀ row ∈ src, ∀ p ∈ row, p.length = zc + 1) :
    keep_alpha_image src src Y X zc = src := by
  refine list_ext_getD _ _ [] (by rw [keep_alpha_image_length, hlen]) ?_
  intro y hy
  rw [keep_alpha_image_length] at hy
  refine list_ext_getD _ _ [] ?_ ?_
  · rw [getD_length_of_mem _ X (keep_alpha_image_rows src src Y X zc)
      (by rw [keep_alpha_image_length]; exact hy),
      getD_length_of_mem _ X hrows (by rw [hlen]; exact hy)]
  · intro x hx
    rw [getD_length_of_mem _ X (keep_alpha_image_rows src src Y X zc)
      (by rw [keep_alpha_image_length]; exact hy)] at hx
    have := keep_alpha_image_get2 src src Y X zc hy hx
    unfold get2 at this
    rw [this]
    refine take_getD_append _ zc ?_
    have hrowmem : src.getD y [] ∈ src := getD_mem src [] (by rw [hlen]; exact hy)
    refine hpix _ hrowmem _ (getD_mem _ [] ?_)
    rw [hrows _ hrowmem]
    exact hx

/-!
## Channel-count (pixel length) preservation
-/

/-- Every pixel written to the flush range has the flushed value or was
already in the buffer. -/
lemma flush_mem (X : ℕ) (avg : Pixel) (buf : List Pixel) (lo hi : ℕ) :
    ∀ p ∈ flush X avg buf lo hi, p ∈ buf ∨ p = avg := by
  unfold flush
  refine foldl_inv (fun b => ∀ p ∈ b, p ∈ buf ∨ p = avg)
    (fun b i => b.set (cx_wrap X i) avg) (List.range' lo (hi - lo)) buf
    (fun p hp => Or.inl hp) ?_
  intro b i _ hb p hp
  rcases List.mem_or_eq_of_mem_set hp with hp' | rfl
  · exact hb p hp'
  · exact Or.inr rfl

/-- Every pixel of a `scan_line` output has the channel count of the row and
initial-buffer pixels. -/
lemma scan_line_pixels (row : List Pixel) (X ov : ℕ) (t : ℚ) (zc Z : ℕ)
    (init : List Pixel) (hX : 0 < X) (hrow : row.length = X)
    (hpixrow : ∀ p ∈ row, p.length = Z) (hinit : init.length = X)
    (hpixinit : ∀ p ∈ init, p.length = Z) :
    ∀ p ∈ scan_line row X ov t zc Z init, p.length = Z := by
  unfold scan_line
  dsimp only
  have hseed : (row.getD 0 []).length = Z :=
    hpixrow _ (getD_mem row [] (by omega))
  have main := foldl_inv
    (fun sb : RunState × List Pixel => sb.1.pixel.length = Z ∧ sb.1.pixels_sum.length = Z ∧
      ∀ p ∈ sb.2, p.length = Z)
    (scan_step row X t zc Z) (List.range (X + ov))
    (⟨0, 1, row.getD 0 [], row.getD 0 []⟩, init) ⟨hseed, hseed, hpixinit⟩ ?_
  · exact main.2.2
  · rintro ⟨s, b⟩ k _ ⟨hp, hsum, hb⟩
    have hpix : (row.getD (cx_wrap X k) []).length = Z :=
      hpixrow _ (getD_mem row [] (by rw [hrow]; exact cx_wrap_lt k hX))
    have hsum' : (pixels_sum_update s.pixel s.pixels_sum).length = Z := by
      unfold pixels_sum_update
      rw [List.length_zipWith, hp, hsum]
      omega
    have havg : ∀ n : ℕ, (average_pixel (pixels_sum_update s.pixel s.pixels_sum) n Z).length = Z := by
      intro n
      unfold average_pixel
      rw [List.length_zipWith, hsum', List.length_replicate]
      omega
    unfold scan_step
    dsimp only
    split
    · refine ⟨hpix, hpix, ?_⟩
      intro p hp'
      rcases List.mem_or_eq_of_mem_set hp' with hp'' | rfl
      · rcases flush_mem X _ b _ _ p hp'' with h3 | rfl
        · exact hb p h3
        · exact havg _
      · exact hpix
    · refine ⟨hpix, hsum', ?_⟩
      intro p hp'
      rcases List.mem_or_eq_of_mem_set hp' with hp'' | rfl
      · exact hb p hp''
      · exact hpix

/-- Full shape preservation of the horizontal pass. -/
lemma horizontal_pass_shape (src : Image) (Y X ov : ℕ) (t : ℚ) (zc Z : ℕ)
    (I0 : Image) (hX : 0 < X) (hsrc : src.length = Y)
    (hrows : ∀ row ∈ src, row.length = X)
    (hpix : ∀ row ∈ src, ∀ p ∈ row, p.length = Z)
    (hl : I0.length = Y) (hr : ∀ row ∈ I0, row.length = X)
    (hp0 : ∀ row ∈ I0, ∀ p ∈ row, p.length = Z) :
    (horizontal_pass src Y X ov t zc Z I0).length = Y ∧
      (∀ row ∈ horizontal_pass src Y X ov t zc Z I0, row.length = X) ∧
      (∀ row ∈ horizontal_pass src Y X ov t zc Z I0, ∀ p ∈ row, p.length = Z) := by
  have hlen : (horizontal_pass src Y X ov t zc Z I0).length = Y := by
    rw [horizontal_pass_length, hl]
  have hchar : ∀ row ∈ horizontal_pass src Y X ov t zc Z I0, ∃ y, y < Y ∧
      row = scan_line (src.getD (cy_wrap Y y) []) X ov t zc Z (I0.getD y []) := by
    intro row hrow
    rw [List.mem_iff_getElem] at hrow
    obtain ⟨y, hy, hrow'⟩ := hrow
    refine ⟨y, by rw [← hlen]; exact hy, ?_⟩
    rw [← hrow', ← List.getD_eq_getElem _ [] hy,
      horizontal_pass_getD src Y X ov t zc Z I0 hl (by rw [← hlen]; exact hy)]
  refine ⟨hlen, ?_, ?_⟩
  · intro row hrow
    obtain ⟨y, hy, rfl⟩ := hchar row hrow
    rw [scan_line_length, getD_length_of_mem I0 X hr (by rw [hl]; exact hy)]
  · intro row hrow
    obtain ⟨y, hy, rfl⟩ := hchar row hrow
    have hysrc : y < src.length := by rw [hsrc]; exact hy
    exact scan_line_pixels _ X ov t zc Z _ hX
      (hrows _ (getD_mem src [] (by rw [hsrc]; exact cy_wrap_lt y (by omega))))
      (hpix _ (getD_mem src [] (by rw [hsrc]; exact cy_wrap_lt y (by omega))))
      (getD_length_of_mem I0 X hr (by rw [hl]; exact hy))
      (hp0 _ (getD_mem I0 [] (by rw [hl]; exact hy)))

/-- Full shape preservation of the vertical pass. -/
lemma vertical_pass_shape (inter : Image) (Y X ov : ℕ) (t : ℚ) (zc Z : ℕ)
    (R0 : Image) (hY : 0 < Y) (hX : 0 < X) (hI : inter.length = Y)
    (hrows : ∀ row ∈ inter, row.length = X)
    (hpix : ∀ row ∈ inter, ∀ p ∈ row, p.length = Z)
    (hl : R0.length = Y) (hr : ∀ row ∈ R0, row.length = X)
    (hp0 : ∀ row ∈ R0, ∀ p ∈ row, p.length = Z) :
    (vertical_pass inter Y X ov t zc Z R0).length = Y ∧
      (∀ row ∈ vertical_pass inter Y X ov t zc Z R0, row.length = X) ∧
      (∀ row ∈ vertical_pass inter Y X ov t zc Z R0, ∀ p ∈ row, p.length = Z) := by
  obtain ⟨hL, hRow, hC⟩ := vertical_pass_cols inter Y X ov t zc Z R0 hY hI hl hr
  refine ⟨hL, hRow, ?_⟩
  have hcolpix : ∀ x < X, ∀ p ∈ getcol inter x, p.length = Z := by
    intro x hx p hp
    unfold getcol at hp
    rw [List.mem_map] at hp
    obtain ⟨row, hrowmem, rfl⟩ := hp
    exact hpix row hrowmem _ (getD_mem row [] (by rw [hrows row hrowmem]; exact hx))
  have hcolpix0 : ∀ x < X, ∀ p ∈ getcol R0 x, p.length = Z := by
    intro x hx p hp
    unfold getcol at hp
    rw [List.mem_map] at hp
    obtain ⟨row, hrowmem, rfl⟩ := hp
    exact hp0 row hrowmem _ (getD_mem row [] (by rw [hr row hrowmem]; exact hx))
  intro row hrow p hp
  rw [List.mem_iff_getElem] at hrow
  obtain ⟨y, hy, hrow'⟩ := hrow
  rw [List.mem_iff_getElem] at hp
  obtain ⟨x, hx, hp'⟩ := hp
  have hyY : y < Y := by rw [← hL]; exact hy
  have hxX : x < X := by
    have := hRow row (by rw [List.mem_iff_getElem]; exact ⟨y, hy, hrow'⟩)
    omega
  have : p = (getcol (vertical_pass inter Y X ov t zc Z R0) x).getD y [] := by
    rw [getcol_getD _ x (by rw [hL]; exact hyY), List.getD_eq_getElem _ [] hy, hrow',
      List.getD_eq_getElem _ [] hx, hp']
  rw [this, hC x hxX]
  exact scan_line_pixels _ Y ov t zc Z _ hY (by rw [getcol_length, hI])
    (hcolpix x hxX) (by rw [getcol_length, hl]) (hcolpix0 x hxX) _
    (getD_mem _ [] (by rw [scan_line_length, getcol_length, hl]; exact hyY))

/-!
## Transposition
-/

lemma transposeImg_length (W : ℕ) (im : Image) : (transposeImg W im).length = W := by
  simp [transposeImg]

lemma transposeImg_getD (W : ℕ) (im : Image) {x : ℕ} (hx : x < W) :
    (transposeImg W im).getD x [] = getcol im x := by
  unfold transposeImg
  rw [getD_map _ _ _ 0 _ (by simpa using hx),
    List.getD_eq_getElem _ _ (by simpa using hx), List.getElem_range]

lemma getcol_create_image (X Y Z : ℕ) {c : ℕ} (hc : c < X) :
    getcol (create_image X Y Z) c = List.replicate Y (List.replicate Z 0) := by
  unfold getcol create_image
  rw [List.map_replicate, getD_replicate _ _ hc]

lemma create_image_length (X Y Z : ℕ) : (create_image X Y Z).length = Y := by
  simp [create_image]

lemma create_image_rows (X Y Z : ℕ) : ∀ row ∈ create_image X Y Z, row.length = X := by
  intro row hrow
  unfold create_image at hrow
  rw [List.eq_of_mem_replicate hrow, List.length_replicate]

lemma create_image_pix (X Y Z : ℕ) :
    ∀ row ∈ create_image X Y Z, ∀ p ∈ row, p.length = Z := by
  intro row hrow p hp
  unfold create_image at hrow
  rw [List.eq_of_mem_replicate hrow] at hp
  rw [List.eq_of_mem_replicate hp, List.length_replicate]

lemma create_image_getD (X Y Z : ℕ) {y : ℕ} (hy : y < Y) :
    (create_image X Y Z).getD y [] = List.replicate X (List.replicate Z 0) := by
  unfold create_image
  rw [getD_replicate _ _ hy]

/-- Claim C7 core: the vertical pass equals the horizontal-pass scan run on
the transposed buffer (with the vertical threshold and overhead), transposed
back. -/
lemma vertical_pass_eq_transposed_horizontal (inter : Image) (Y X ov : ℕ) (t : ℚ)
    (zc Z : ℕ) (hY : 0 < Y) (hX : 0 < X) (hI : inter.length = Y) :
    vertical_pass inter Y X ov t zc Z (create_image X Y Z) =
      transposeImg Y
        (horizontal_pass (transposeImg X inter) X Y ov t zc Z (create_image Y X Z)) := by
  obtain ⟨hVlen, hVrows, hVcols⟩ := vertical_pass_cols inter Y X ov t zc Z
    (create_image X Y Z) hY hI (create_image_length X Y Z) (create_image_rows X Y Z)
  set V := vertical_pass inter Y X ov t zc Z (create_image X Y Z) with hV
  set hp := horizontal_pass (transposeImg X inter) X Y ov t zc Z (create_image Y X Z) with hhp
  have hplen : hp.length = X := by
    rw [hhp, horizontal_pass_length, create_image_length]
  have hpget : ∀ x < X, hp.getD x [] =
      scan_line (getcol inter x) Y ov t zc Z (List.replicate Y (List.replicate Z 0)) := by
    intro x hx
    rw [hhp, horizontal_pass_getD _ _ _ _ _ _ _ _ (create_image_length Y X Z) hx,
      cy_wrap_eq_of_lt hx, transposeImg_getD X inter hx, create_image_getD Y X Z hx]
  refine list_ext_getD _ _ [] (by rw [hVlen, transposeImg_length]) ?_
  intro y hy
  rw [hVlen] at hy
  have hrowV : (V.getD y []).length = X := by
    refine hVrows _ ?_
    rw [List.mem_iff_getElem]
    exact ⟨y, by rw [hVlen]; exact hy, (List.getD_eq_getElem _ _ (by rw [hVlen]; exact hy)).symm⟩
  rw [transposeImg_getD Y _ hy]
  refine list_ext_getD _ _ [] (by rw [hrowV, getcol_length, hplen]) ?_
  intro x hx
  rw [hrowV] at hx
  have hleft : (V.getD y []).getD x [] =
      (scan_line (getcol inter x) Y ov t zc Z (List.replicate Y (List.replicate Z 0))).getD y [] := by
    rw [← getcol_create_image X Y Z hx, ← hVcols x hx,
      getcol_getD V x (by rw [hVlen]; exact hy)]
  rw [hleft, getcol_getD hp y (by rw [hplen]; exact hx), hpget x hx]

/-!
## Equivalence of the bounds-checked code with the total embedding
-/

/-- A `foldlM` in `Option` whose every step succeeds is the plain `foldl`. -/
lemma foldlM_eq_foldl_of {α β : Type} (P : α → Prop) (f : α → β → α)
    (g : α → β → Option α) :
    ∀ (l : List β) (a : α), P a →
      (∀ a, P a → ∀ b ∈ l, g a b = some (f a b) ∧ P (f a b)) →
      List.foldlM g a l = some (List.foldl f a l) := by
  intro l
  induction l with
  | nil => intro a _ _; rfl
  | cons b l ih =>
    intro a hP h
    rw [List.foldlM_cons, (h a hP b (List.mem_cons_self b l)).1]
    simp only [Option.bind_eq_bind, Option.some_bind]
    exact ih (f a b) (h a hP b (List.mem_cons_self b l)).2
      (fun a' hP' b' hb' => h a' hP' b' (List.mem_cons_of_mem _ hb'))

/-- A `mapM` in `Option` whose every element succeeds is the plain `map`. -/
lemma mapM_eq_map_of {α β : Type} (f : α → β) (g : α → Option β) :
    ∀ (l : List α), (∀ a ∈ l, g a = some (f a)) → l.mapM g = some (l.map f) := by
  intro l
  induction l with
  | nil => intro _; rfl
  | cons b l ih =>
    intro h
    rw [List.mapM_cons, h b (List.mem_cons_self b l)]
    simp only [Option.bind_eq_bind, Option.some_bind,
      ih (fun a ha => h a (List.mem_cons_of_mem _ ha)), Option.map_some']
    rfl

lemma checked_get_eq {α : Type} (l : List α) (d : α) {i : ℕ} (h : i < l.length) :
    checked_get l i = some (l.getD i d) := by
  unfold checked_get
  rw [List.getElem?_eq_getElem h, List.getD_eq_getElem _ _ h]

lemma checked_set_eq {α : Type} (l : List α) (v : α) {i : ℕ} (h : i < l.length) :
    checked_set l i v = some (l.set i v) := by
  unfold checked_set
  rw [if_pos h]

lemma checked_flush_eq (X : ℕ) (avg : Pixel) (buf : List Pixel) (lo hi : ℕ)
    (hX : 0 < X) (hb : buf.length = X) :
    checked_flush X avg buf lo hi = some (flush X avg buf lo hi) := by
  unfold checked_flush flush
  refine foldlM_eq_foldl_of (fun b => b.length = X) _ _ _ buf hb ?_
  intro b hP i _
  exact ⟨checked_set_eq b avg (by rw [hP]; exact cx_wrap_lt i hX),
    by simpa using hP⟩

lemma checked_scan_step_eq (row : List Pixel) (X : ℕ) (t : ℚ) (zc Z : ℕ)
    (sb : RunState × List Pixel) (x : ℕ) (hX : 0 < X) (hrow : row.length = X)
    (hb : sb.2.length = X) :
    checked_scan_step row X t zc Z sb x = some (scan_step row X t zc Z sb x) := by
  unfold checked_scan_step scan_step
  dsimp only
  rw [checked_get_eq row [] (by rw [hrow]; exact cx_wrap_lt x hX)]
  simp only [Option.bind_eq_bind, Option.some_bind]
  by_cases hbr : breach t (sb.1.number + 1) zc (row.getD (cx_wrap X x) [])
      (pixels_sum_update sb.1.pixel sb.1.pixels_sum) = true
  · rw [if_pos hbr, if_pos hbr,
      checked_flush_eq X _ sb.2 _ _ hX hb]
    simp only [Option.bind_eq_bind, Option.some_bind]
    rw [checked_set_eq _ _ (by rw [flush_length, hb]; exact cx_wrap_lt x hX)]
    rfl
  · rw [if_neg hbr, if_neg hbr,
      checked_set_eq _ _ (by rw [hb]; exact cx_wrap_lt x hX)]
    rfl

lemma checked_scan_line_eq (row : List Pixel) (X ov : ℕ) (t : ℚ) (zc Z : ℕ)
    (init : List Pixel) (hX : 0 < X) (hrow : row.length = X)
    (hinit : init.length = X) :
    checked_scan_line row X ov t zc Z init = some (scan_line row X ov t zc Z init) := by
  unfold checked_scan_line scan_line
  dsimp only
  rw [checked_get_eq row [] (by rw [hrow]; exact hX)]
  simp only [Option.bind_eq_bind, Option.some_bind]
  rw [foldlM_eq_foldl_of (fun sb : RunState × List Pixel => sb.2.length = X)
    (scan_step row X t zc Z) (checked_scan_step row X t zc Z) _ _ hinit ?_]
  · rfl
  · intro sb hP x _
    exact ⟨checked_scan_step_eq row X t zc Z sb x hX hrow hP,
      by show (scan_step row X t zc Z sb x).2.length = X
         rw [scan_step_snd_length]; exact hP⟩

lemma checked_horizontal_pass_eq (src : Image) (Y X ov : ℕ) (t : ℚ) (zc Z : ℕ)
    (inter : Image) (hX : 0 < X) (hY : 0 < Y) (hsrc : src.length = Y)
    (hsrcrows : ∀ row ∈ src, row.length = X)
    (hl : inter.length = Y) (hr : ∀ row ∈ inter, row.length = X) :
    checked_horizontal_pass src Y X ov t zc Z inter =
      some (horizontal_pass src Y X ov t zc Z inter) := by
  unfold checked_horizontal_pass horizontal_pass
  refine foldlM_eq_foldl_of (fun im => im.length = Y ∧ ∀ row ∈ im, row.length = X)
    _ _ _ inter ⟨hl, hr⟩ ?_
  intro im hP y hy
  rw [List.mem_range] at hy
  obtain ⟨hPl, hPr⟩ := hP
  have hcy : cy_wrap Y y < src.length := by rw [hsrc]; exact cy_wrap_lt y hY
  have hyim : y < im.length := by rw [hPl]; exact hy
  constructor
  · rw [checked_get_eq src [] hcy]
    simp only [Option.bind_eq_bind, Option.some_bind]
    rw [checked_get_eq im [] hyim]
    simp only [Option.some_bind]
    rw [checked_scan_line_eq _ X ov t zc Z _ hX
      (hsrcrows _ (getD_mem src [] hcy)) (getD_length_of_mem im X hPr hyim)]
    simp only [Option.some_bind]
    exact checked_set_eq im _ hyim
  · refine ⟨by rw [List.length_set]; exact hPl, ?_⟩
    intro row hrow
    rcases List.mem_or_eq_of_mem_set hrow with hrow' | rfl
    · exact hPr row hrow'
    · rw [scan_line_length]
      exact getD_length_of_mem im X hPr hyim

lemma checked_get2_eq (im : Image) (r c : ℕ) (hr : r < im.length)
    (hc : c < (im.getD r []).length) :
    checked_get2 im r c = some (get2 im r c) := by
  unfold checked_get2 get2
  rw [checked_get_eq im [] hr]
  simp only [Option.bind_eq_bind, Option.some_bind]
  exact checked_get_eq _ [] hc

lemma checked_set2_eq (im : Image) (r c : ℕ) (v : Pixel) (hr : r < im.length)
    (hc : c < (im.getD r []).length) :
    checked_set2 im r c v = some (set2 im r c v) := by
  unfold checked_set2 set2
  rw [checked_get_eq im [] hr]
  simp only [Option.bind_eq_bind, Option.some_bind]
  rw [checked_set_eq _ v hc]
  simp only [Option.some_bind]
  exact checked_set_eq im _ hr

lemma set2_length (im : Image) (r c : ℕ) (v : Pixel) :
    (set2 im r c v).length = im.length := by
  simp [set2]

lemma set2_rows (im : Image) (r c : ℕ) (v : Pixel) (X : ℕ)
    (h : ∀ row ∈ im, row.length = X) :
    ∀ row ∈ set2 im r c v, row.length = X := by
  by_cases hr : r < im.length
  · intro row hrow
    rcases List.mem_or_eq_of_mem_set hrow with hrow' | rfl
    · exact h row hrow'
    · rw [List.length_set]
      exact getD_length_of_mem im X h hr
  · unfold set2
    rw [List.set_eq_of_length_le (by omega)]
    exact h

lemma vflush_length (Y x : ℕ) (avg : Pixel) (im : Image) (lo hi : ℕ) :
    (vflush Y x avg im lo hi).length = im.length := by
  unfold vflush
  exact foldl_inv (fun b => b.length = im.length)
    (fun b i => set2 b (cy_wrap Y i) x avg) (List.range' lo (hi - lo)) im rfl
    (fun b i _ hb => by
      show (set2 b (cy_wrap Y i) x avg).length = im.length
      rw [set2_length]; exact hb)

lemma vflush_rows (Y x : ℕ) (avg : Pixel) (im : Image) (lo hi X : ℕ)
    (h : ∀ row ∈ im, row.length = X) :
    ∀ row ∈ vflush Y x avg im lo hi, row.length = X := by
  unfold vflush
  exact foldl_inv (fun b => ∀ row ∈ b, row.length = X)
    (fun b i => set2 b (cy_wrap Y i) x avg) (List.range' lo (hi - lo)) im h
    (fun b i _ hb => set2_rows b _ x avg X hb)

lemma vertical_step_snd_length (inter : Image) (Y X : ℕ) (t : ℚ) (zc Z x : ℕ)
    (sb : RunState × Image) (y : ℕ) :
    (vertical_step inter Y X t zc Z x sb y).2.length = sb.2.length := by
  unfold vertical_step
  dsimp only
  split
  · rw [set2_length, vflush_length]
  · rw [set2_length]

lemma vertical_step_snd_rows (inter : Image) (Y X : ℕ) (t : ℚ) (zc Z x : ℕ)
    (sb : RunState × Image) (y : ℕ) (W : ℕ) (h : ∀ row ∈ sb.2, row.length = W) :
    ∀ row ∈ (vertical_step inter Y X t zc Z x sb y).2, row.length = W := by
  unfold vertical_step
  dsimp only
  split
  · exact set2_rows _ _ _ _ W (vflush_rows Y x _ sb.2 _ _ W h)
  · exact set2_rows _ _ _ _ W h

lemma checked_vflush_eq (Y x : ℕ) (avg : Pixel) (im : Image) (lo hi X : ℕ)
    (hY : 0 < Y) (him : im.length = Y) (hrows : ∀ row ∈ im, row.length = X)
    (hx : x < X) :
    checked_vflush Y x avg im lo hi = some (vflush Y x avg im lo hi) := by
  unfold checked_vflush vflush
  refine foldlM_eq_foldl_of (fun b => b.length = Y ∧ ∀ row ∈ b, row.length = X)
    _ _ _ im ⟨him, hrows⟩ ?_
  intro b hP i _
  have hcy : cy_wrap Y i < b.length := by rw [hP.1]; exact cy_wrap_lt i hY
  refine ⟨checked_set2_eq b _ x avg hcy
    (by rw [getD_length_of_mem b X hP.2 hcy]; exact hx), ?_⟩
  constructor
  · show (set2 b (cy_wrap Y i) x avg).length = Y
    rw [set2_length]; exact hP.1
  · exact set2_rows b _ x avg X hP.2

lemma checked_vertical_step_eq (inter : Image) (Y X : ℕ) (t : ℚ) (zc Z x : ℕ)
    (sb : RunState × Image) (y : ℕ) (hY : 0 < Y) (hx : x < X)
    (hI : inter.length = Y) (hIrows : ∀ row ∈ inter, row.length = X)
    (hb : sb.2.length = Y) (hbrows : ∀ row ∈ sb.2, row.length = X) :
    checked_vertical_step inter Y X t zc Z x sb y =
      some (vertical_step inter Y X t zc Z x sb y) := by
  have hcyI : cy_wrap Y y < inter.length := by rw [hI]; exact cy_wrap_lt y hY
  have hcyb : cy_wrap Y y < sb.2.length := by rw [hb]; exact cy_wrap_lt y hY
  unfold checked_vertical_step vertical_step
  dsimp only
  rw [checked_get2_eq inter _ _ hcyI
    (by rw [getD_length_of_mem inter X hIrows hcyI]; exact cx_wrap_lt x (by omega))]
  simp only [Option.bind_eq_bind, Option.some_bind]
  by_cases hbr : breach t (sb.1.number + 1) zc (get2 inter (cy_wrap Y y) (cx_wrap X x))
      (pixels_sum_update sb.1.pixel sb.1.pixels_sum) = true
  · rw [if_pos hbr, if_pos hbr,
      checked_vflush_eq Y x _ sb.2 _ _ X hY hb hbrows hx]
    simp only [Option.bind_eq_bind, Option.some_bind]
    rw [checked_set2_eq _ _ x _ (by rw [vflush_length, hb]; exact cy_wrap_lt y hY)
      (by rw [getD_length_of_mem _ X (vflush_rows Y x _ sb.2 _ _ X hbrows)
        (by rw [vflush_length, hb]; exact cy_wrap_lt y hY)]; exact hx)]
    rfl
  · rw [if_neg hbr, if_neg hbr,
      checked_set2_eq _ _ x _ hcyb
      (by rw [getD_length_of_mem _ X hbrows hcyb]; exact hx)]
    rfl

lemma checked_vertical_line_eq (inter : Image) (Y X ov : ℕ) (t : ℚ) (zc Z x : ℕ)
    (res : Image) (hY : 0 < Y) (hx : x < X) (hI : inter.length = Y)
    (hIrows : ∀ row ∈ inter, row.length = X)
    (hres : res.length = Y) (hresrows : ∀ row ∈ res, row.length = X) :
    checked_vertical_line inter Y X ov t zc Z x res =
      some (vertical_line inter Y X ov t zc Z x res) := by
  unfold checked_vertical_line vertical_line
  dsimp only
  rw [checked_get2_eq inter 0 _ (by omega)
    (by rw [getD_length_of_mem inter X hIrows (by omega)]; exact cx_wrap_lt x (by omega))]
  simp only [Option.bind_eq_bind, Option.some_bind]
  rw [foldlM_eq_foldl_of
    (fun sb : RunState × Image => sb.2.length = Y ∧ ∀ row ∈ sb.2, row.length = X)
    (vertical_step inter Y X t zc Z x) (checked_vertical_step inter Y X t zc Z x)
    _ _ ⟨hres, hresrows⟩ ?_]
  · rfl
  · intro sb hP y _
    refine ⟨checked_vertical_step_eq inter Y X t zc Z x sb y hY hx hI hIrows hP.1 hP.2, ?_, ?_⟩
    · show (vertical_step inter Y X t zc Z x sb y).2.length = Y
      rw [vertical_step_snd_length]; exact hP.1
    · exact vertical_step_snd_rows inter Y X t zc Z x sb y X hP.2

lemma checked_vertical_pass_eq (inter : Image) (Y X ov : ℕ) (t : ℚ) (zc Z : ℕ)
    (res : Image) (hY : 0 < Y) (hI : inter.length = Y)
    (hIrows : ∀ row ∈ inter, row.length = X)
    (hres : res.length = Y) (hresrows : ∀ row ∈ res, row.length = X) :
    checked_vertical_pass inter Y X ov t zc Z res =
      some (vertical_pass inter Y X ov t zc Z res) := by
  unfold checked_vertical_pass vertical_pass
  refine foldlM_eq_foldl_of (fun im => im.length = Y ∧ ∀ row ∈ im, row.length = X)
    _ _ _ res ⟨hres, hresrows⟩ ?_
  intro im hP x hx
  rw [List.mem_range] at hx
  refine ⟨checked_vertical_line_eq inter Y X ov t zc Z x im hY hx hI hIrows hP.1 hP.2, ?_⟩
  rw [vertical_line_eq inter Y X ov t zc Z x im hY hx hI hP.1 hP.2]
  have hcollen : (scan_line (getcol inter x) Y ov t zc Z (getcol im x)).length = im.length := by
    rw [scan_line_length, getcol_length]
  constructor
  · rw [setcol_length _ _ _ hcollen]
    exact hP.1
  · exact setcol_rows_length im x X _ hP.2

lemma checked_keep_alpha_image_eq (res src : Image) (Y X zc Z : ℕ)
    (hres : res.length = Y) (hresrows : ∀ row ∈ res, row.length = X)
    (hsrc : src.length = Y) (hsrcrows : ∀ row ∈ src, row.length = X)
    (hsrcpix : ∀ row ∈ src, ∀ p ∈ row, p.length = Z) (hzc : zc < Z) :
    checked_keep_alpha_image res src Y X zc =
      some (keep_alpha_image res src Y X zc) := by
  unfold checked_keep_alpha_image keep_alpha_image
  refine mapM_eq_map_of _ _ _ ?_
  intro y hy
  rw [List.mem_range] at hy
  refine mapM_eq_map_of _ _ _ ?_
  intro x hx
  rw [List.mem_range] at hx
  have hyres : y < res.length := by rw [hres]; exact hy
  have hysrc : y < src.length := by rw [hsrc]; exact hy
  rw [checked_get2_eq res y x hyres
    (by rw [getD_length_of_mem res X hresrows hyres]; exact hx)]
  simp only [Option.bind_eq_bind, Option.some_bind]
  rw [checked_get2_eq src y x hysrc
    (by rw [getD_length_of_mem src X hsrcrows hysrc]; exact hx)]
  simp only [Option.some_bind]
  rw [checked_get_eq (get2 src y x) 0 (by
    unfold get2
    rw [getD_length_of_mem _ Z (hsrcpix _ (getD_mem src [] hysrc))
      (by rw [getD_length_of_mem src X hsrcrows hysrc]; exact hx)]
    exact hzc)]
  rfl

/-- On well-formed inputs every subscript taken by `filter` is in range: the
bounds-checked code runs to completion and agrees with the total embedding. -/
lemma checked_filter_eq (src : Image) (tx ty : ℚ) (w k : Bool) (Y X Z : ℕ)
    (hY : 0 < Y) (hX : 0 < X) (hZ : 0 < Z) (hsrc : src.length = Y)
    (hrows : ∀ row ∈ src, row.length = X)
    (hpix : ∀ row ∈ src, ∀ p ∈ row, p.length = Z) :
    checked_filter src tx ty w k = filter src tx ty w k := by
  have hne : src ≠ [] := by
    intro h
    rw [h] at hsrc
    simp only [List.length_nil] at hsrc
    omega
  have h1 : src.head? = some (src.head hne) := List.head?_eq_head hne
  have hr0mem : src.head hne ∈ src := List.head_mem hne
  have hr0len : (src.head hne).length = X := hrows _ hr0mem
  have hr0ne : src.head hne ≠ [] := by
    intro h
    rw [h] at hr0len
    simp only [List.length_nil] at hr0len
    omega
  have h2 : (src.head hne).head? = some ((src.head hne).head hr0ne) :=
    List.head?_eq_head hr0ne
  have hp0len : ((src.head hne).head hr0ne).length = Z :=
    hpix _ hr0mem _ (List.head_mem hr0ne)
  unfold checked_filter filter
  rw [h1]
  simp only [Option.bind_eq_bind, Option.some_bind]
  rw [h2]
  simp only [Option.some_bind]
  rw [hsrc, hr0len, hp0len]
  have hcreate_rows : ∀ W H D : ℕ, ∀ row ∈ create_image W H D, row.length = W :=
    fun W H D => create_image_rows W H D
  rw [checked_horizontal_pass_eq src Y X (overheads w X Y).1 tx (zcolor Z) Z
    (create_image X Y Z) hX hY hsrc
    (fun row hrow => by rw [hrows row hrow])
    (create_image_length X Y Z) (create_image_rows X Y Z)]
  simp only [Option.some_bind]
  obtain ⟨hHlen, hHrows, hHpix⟩ := horizontal_pass_shape src Y X (overheads w X Y).1 tx
    (zcolor Z) Z (create_image X Y Z) hX hsrc
    (fun row hrow => by rw [hrows row hrow])
    (fun row hrow p hp => by rw [hpix row hrow p hp])
    (create_image_length X Y Z) (create_image_rows X Y Z)
    (create_image_pix X Y Z)
  rw [checked_vertical_pass_eq _ Y X (overheads w X Y).2 ty (zcolor Z) Z
    (create_image X Y Z) hY hHlen hHrows
    (create_image_length X Y Z) (create_image_rows X Y Z)]
  simp only [Option.some_bind]
  by_cases hz : Z = 1 ∨ Z = 3
  · rw [if_pos hz, if_pos hz]
  · rw [if_neg hz, if_neg hz]
    cases k with
    | true =>
      rw [if_pos rfl, if_pos rfl]
      obtain ⟨hVlen, hVrows, _⟩ := vertical_pass_shape _ Y X (overheads w X Y).2 ty
        (zcolor Z) Z (create_image X Y Z) hY hX hHlen hHrows hHpix
        (create_image_length X Y Z) (create_image_rows X Y Z)
        (create_image_pix X Y Z)
      rw [checked_keep_alpha_image_eq _ src Y X (zcolor Z) Z hVlen hVrows hsrc
        (fun row hrow => by rw [hrows row hrow])
        (fun row hrow p hp => by rw [hpix row hrow p hp])
        (by
          unfold zcolor
          rw [if_neg hz]
          omega)]
      rfl
    | false =>
      rw [if_neg (by simp), if_neg (by simp)]

/-!
## Helpers for the claim theorems
-/

lemma zcolor_pos {Z : ℕ} (hZ : Z = 1 ∨ Z = 2 ∨ Z = 3 ∨ Z = 4) : 0 < zcolor Z := by
  rcases hZ with rfl | rfl | rfl | rfl <;> decide

lemma zcolor_succ_eq {Z : ℕ} (hZ : Z = 2 ∨ Z = 4) : zcolor Z + 1 = Z := by
  rcases hZ with rfl | rfl <;> decide

lemma zcolor_lt {Z : ℕ} (hZ : Z = 2 ∨ Z = 4) : zcolor Z < Z := by
  rcases hZ with rfl | rfl <;> decide

lemma not_one_three_of_alpha {Z : ℕ} (hZ : Z = 2 ∨ Z = 4) : ¬(Z = 1 ∨ Z = 3) := by
  rcases hZ with rfl | rfl <;> decide

lemma getD_append_length {α : Type*} (l : List α) (a d : α) :
    (l ++ [a]).getD l.length d = a := by
  rw [List.getD_eq_getElem _ _ (by rw [List.length_append]; simp),
    List.getElem_append_right (le_refl _)]
  simp

/-- Pixel lengths in the alpha rebuild: colour prefix of length `zc` plus the
alpha channel. -/
lemma keep_alpha_image_pix (res src : Image) (Y X zc Z : ℕ)
    (hres : res.length = Y) (hresrows : ∀ row ∈ res, row.length = X)
    (hrespix : ∀ row ∈ res, ∀ p ∈ row, p.length = Z) (hzc : zc ≤ Z) :
    ∀ row ∈ keep_alpha_image res src Y X zc, ∀ p ∈ row, p.length = zc + 1 := by
  intro row hrow p hp
  unfold keep_alpha_image at hrow
  rw [List.mem_map] at hrow
  obtain ⟨y, hy, rfl⟩ := hrow
  rw [List.mem_range] at hy
  rw [List.mem_map] at hp
  obtain ⟨x, hx, rfl⟩ := hp
  rw [List.mem_range] at hx
  have hyres : y < res.length := by rw [hres]; exact hy
  have hget : (get2 res y x).length = Z := by
    unfold get2
    exact getD_length_of_mem _ Z (hrespix _ (getD_mem res [] hyres))
      (by rw [getD_length_of_mem res X hresrows hyres]; exact hx)
  rw [List.length_append, List.length_take, hget]
  simp only [List.length_cons, List.length_nil]
  omega

/-- `filter` succeeds on every non-degenerate buffer: there is no validation
and the only failure point is reading the sizes of an empty buffer. -/
lemma filter_isSome (src : Image) (tx ty : ℚ) (w k : Bool)
    (hne : src ≠ []) (hr0 : src.headD [] ≠ []) :
    (filter src tx ty w k).isSome = true := by
  have h1 : src.head? = some (src.head hne) := List.head?_eq_head hne
  have hr0ne : src.head hne ≠ [] := by
    rwa [List.headD_eq_head? , h1] at hr0
  have h2 : (src.head hne).head? = some ((src.head hne).head hr0ne) :=
    List.head?_eq_head hr0ne
  by_cases hz : ((src.head hne).head hr0ne).length = 1 ∨
      ((src.head hne).head hr0ne).length = 3
  · rw [filter_some_no_alpha src _ _ tx ty w k h1 h2 hz]
    rfl
  · cases k with
    | true =>
      rw [filter_some_keep_alpha src _ _ tx ty w h1 h2 hz]
      rfl
    | false =>
      rw [filter_some_no_keep src _ _ tx ty w h1 h2 hz]
      rfl

/-- If both passes return the source unchanged, so does the whole filter. -/
lemma filter_eq_some_src (src : Image) (tx ty : ℚ) (w k : Bool) (Y X Z : ℕ)
    (hY : 0 < Y) (hX : 0 < X) (hsrc : src.length = Y)
    (hrows : ∀ row ∈ src, row.length = X)
    (hpix : ∀ row ∈ src, ∀ p ∈ row, p.length = Z)
    (hZ : Z = 1 ∨ Z = 2 ∨ Z = 3 ∨ Z = 4)
    (hH : horizontal_pass src Y X (overheads w X Y).1 tx (zcolor Z) Z
      (create_image X Y Z) = src)
    (hV : vertical_pass src Y X (overheads w X Y).2 ty (zcolor Z) Z
      (create_image X Y Z) = src) :
    filter src tx ty w k = some src := by
  have hne : src ≠ [] := by
    intro h
    rw [h] at hsrc
    simp only [List.length_nil] at hsrc
    omega
  have h1 : src.head? = some (src.head hne) := List.head?_eq_head hne
  have hr0mem : src.head hne ∈ src := List.head_mem hne
  have hr0len : (src.head hne).length = X := hrows _ hr0mem
  have hr0ne : src.head hne ≠ [] := by
    intro h
    rw [h] at hr0len
    simp only [List.length_nil] at hr0len
    omega
  have h2 : (src.head hne).head? = some ((src.head hne).head hr0ne) :=
    List.head?_eq_head hr0ne
  have hp0len : ((src.head hne).head hr0ne).length = Z :=
    hpix _ hr0mem _ (List.head_mem hr0ne)
  by_cases hz : Z = 1 ∨ Z = 3
  · rw [filter_some_no_alpha src _ _ tx ty w k h1 h2 (by rw [hp0len]; exact hz)]
    rw [hsrc, hr0len, hp0len, hH, hV]
  · have hz' : ¬(((src.head hne).head hr0ne).length = 1 ∨
        ((src.head hne).head hr0ne).length = 3) := by rw [hp0len]; exact hz
    have hZ24 : Z = 2 ∨ Z = 4 := by
      rcases hZ with rfl | rfl | rfl | rfl
      · exact absurd (Or.inl rfl) hz
      · exact Or.inl rfl
      · exact absurd (Or.inr rfl) hz
      · exact Or.inr rfl
    cases k with
    | true =>
      rw [filter_some_keep_alpha src _ _ tx ty w h1 h2 hz']
      rw [hsrc, hr0len, hp0len, hH, hV]
      rw [keep_alpha_image_self src Y X (zcolor Z) hsrc hrows
        (fun row hrow p hp => by
          rw [hpix row hrow p hp]
          exact (zcolor_succ_eq hZ24).symm)]
    | false =>
      rw [filter_some_no_keep src _ _ tx ty w h1 h2 hz']
      rw [hsrc, hr0len, hp0len, hH, hV]

/-- A valid image all of whose pixels equal `p` is `replicate Y (replicate X p)`. -/
lemma uniform_eq_replicate (src : Image) (p : Pixel) (Y X : ℕ)
    (hsrc : src.length = Y) (hrows : ∀ row ∈ src, row.length = X)
    (huni : ∀ row ∈ src, ∀ q ∈ row, q = p) :
    src = List.replicate Y (List.replicate X p) := by
  refine list_ext_getD _ _ [] (by rw [hsrc, List.length_replicate]) ?_
  intro y hy
  rw [hsrc] at hy
  rw [getD_replicate _ _ hy]
  have hymem : src.getD y [] ∈ src := getD_mem src [] (by rw [hsrc]; exact hy)
  refine list_ext_getD _ _ [] (by rw [hrows _ hymem, List.length_replicate]) ?_
  intro x hx
  rw [hrows _ hymem] at hx
  rw [getD_replicate _ _ hx]
  exact huni _ hymem _ (getD_mem _ [] (by rw [hrows _ hymem]; exact hx))

/-- Reading the channel just past a length-`zc` colour prefix returns the
appended alpha value. -/
lemma getD_take_append_at (v : Pixel) (a : ℤ) (zc : ℕ) (h : zc ≤ v.length) :
    ((v.take zc) ++ [a]).getD zc 0 = a := by
  rw [List.getD_eq_getElem _ _ (by
    rw [List.length_append, List.length_take]
    simp only [List.length_cons, List.length_nil]
    omega)]
  rw [List.getElem_append_right (by rw [List.length_take]; omega)]
  simp [List.length_take, Nat.min_eq_left h]

/-!
## Claim theorems
-/

/-- C1 counterexample.  The claim says the flushed average is written to
every position from `start` to `x − 1` inclusive, in particular to `x − 1`.
On the one-row image `[[0], [4], [100]]` with threshold 5 the breach fires at
`x = 2` with run start 0, count 4 and sum 4, so the claim predicts the
average `floor(4/4) = 1` at positions 0 and 1, i.e. output
`[[1], [1], [100]]`.  The code's flush loop is `range(x_start, x - 1)`,
which stops at `x − 2`: position 1 keeps its literal value 4. -/
theorem C1_counterexample :
    filter [[[0], [4], [100]]] 5 5 false false = some [[[1], [4], [100]]] ∧
      some [[[1], [4], [100]]] ≠ some [[[1], [1], [100]]] := by
  constructor
  · with_unfolding_all rfl
  · decide

/-- C1 amended.  In each averaging pass, when the breach criterion fires at
scan position `x`, the per-channel integer average is written to every
resolved position from `start` to `x − 2` inclusive — the breaching pixel at
`x` and the immediately preceding position `x − 1` are both excluded, and
`x − 1` keeps the value it already had in the buffer. -/
theorem C1_flush_excludes_last_pixel (row : List Pixel) (X : ℕ) (t : ℚ)
    (zc Z : ℕ) (s : RunState) (buf : List Pixel) (x : ℕ) (hX : 0 < X)
    (hxX : x < X) (hbuf : buf.length = X) (hs : s.start < x)
    (hb : breach t (s.number + 1) zc (row.getD (cx_wrap X x) [])
      (pixels_sum_update s.pixel s.pixels_sum) = true) :
    (∀ i, s.start ≤ i → i + 1 < x →
      ((scan_step row X t zc Z (s, buf) x).2).getD i [] =
        average_pixel (pixels_sum_update s.pixel s.pixels_sum) (s.number + 1) Z) ∧
    ((scan_step row X t zc Z (s, buf) x).2).getD (x - 1) [] =
      buf.getD (x - 1) [] := by
  unfold scan_step
  dsimp only
  rw [if_pos hb]
  dsimp only
  constructor
  · intro i h1 h2
    rw [getD_set_ne _ _ _ (by rw [cx_wrap_eq_of_lt hxX]; omega),
      flush_getD_in X _ buf hbuf h1 (by omega) (by omega)]
  · rw [getD_set_ne _ _ _ (by rw [cx_wrap_eq_of_lt hxX]; omega),
      flush_getD_out X _ buf
        (fun i hi1 hi2 => by rw [cx_wrap_eq_of_lt (by omega)]; omega)]

/-- Witness for C1 amended at the breach of the counterexample trace. -/
theorem C1_flush_excludes_last_pixel_witness :
    ((scan_step [[0], [4], [100]] 3 5 1 1 (⟨0, 3, [4], [0]⟩, [[0], [4], [0]]) 2).2).getD 0 [] =
      average_pixel (pixels_sum_update [4] [0]) 4 1 ∧
    ((scan_step [[0], [4], [100]] 3 5 1 1 (⟨0, 3, [4], [0]⟩, [[0], [4], [0]]) 2).2).getD 1 [] =
      ([[0], [4], [0]] : List Pixel).getD 1 [] :=
  ⟨(C1_flush_excludes_last_pixel [[0], [4], [100]] 3 5 1 1 ⟨0, 3, [4], [0]⟩
      [[0], [4], [0]] 2 (by decide) (by decide) (by decide) (by decide)
      (by with_unfolding_all rfl)).1 0 (by decide) (by decide),
    (C1_flush_excludes_last_pixel [[0], [4], [100]] 3 5 1 1 ⟨0, 3, [4], [0]⟩
      [[0], [4], [0]] 2 (by decide) (by decide) (by decide) (by decide)
      (by with_unfolding_all rfl)).2⟩

/-- C2 counterexample.  A well-formed 1×1 buffer with Z = 5 channels — a
channel count outside {1,2,3,4} — is processed without any failure: `filter`
returns a result instead of an `UnsupportedChannelCount` error
(`Z_COLOR = min(Z - 1, 3)` silently caps the criterion channels). -/
theorem C2_counterexample :
    filter [[[1, 2, 3, 4, 5]]] 0 0 false false = some [[[1, 2, 3, 4, 5]]] ∧
      ([1, 2, 3, 4, 5] : Pixel).length ∉ ([1, 2, 3, 4] : List ℕ) := by
  constructor
  · with_unfolding_all rfl
  · decide

/-- C2 amended.  `filter` performs no input validation at all: every
well-formed buffer with positive height and width is processed to a result
for any channel count Z ≥ 1 (including Z outside {1,2,3,4}), and a
zero-sized buffer fails with an untyped indexing error (`none`, Python's
`IndexError` while reading the sizes) rather than a typed
`InvalidDimensions` result.  The bound Z ≥ 1 is part of the amended claim:
at Z = 0 with `keep_alpha` the real code raises `IndexError` on
`source_image[y][x][-1]` in the alpha rebuild (Python computes
`Z_COLOR = min(0 - 1, 3) = -1`), a path this ℕ-indexed embedding does not
reproduce, so the theorem does not quantify over it. -/
theorem C2_no_entry_validation (src : Image) (tx ty : ℚ) (w k : Bool)
    (Y X Z : ℕ) (h : ValidImage src Y X Z) (hZ : 0 < Z) :
    (filter src tx ty w k).isSome = true ∧ filter [] tx ty w k = none := by
  obtain ⟨hY, hX, hsrc, hrows, _⟩ := h
  refine ⟨filter_isSome src tx ty w k ?_ ?_, rfl⟩
  · intro hcon
    rw [hcon] at hsrc
    simp only [List.length_nil] at hsrc
    omega
  · have hne : src ≠ [] := by
      intro hcon
      rw [hcon] at hsrc
      simp only [List.length_nil] at hsrc
      omega
    rw [List.headD_eq_head?, List.head?_eq_head hne]
    intro hcon
    simp only [Option.getD_some] at hcon
    have := hrows _ (List.head_mem hne)
    rw [hcon] at this
    simp only [List.length_nil] at this
    omega

/-- Witness for C2 amended: a 1×1 five-channel image is valid for the
hypotheses and `filter` succeeds on it while failing untyped on `[]`. -/
theorem C2_no_entry_validation_witness :
    (filter [[[1, 2, 3, 4, 5]]] 0 0 false false).isSome = true ∧
      filter [] 0 0 false false = none :=
  C2_no_entry_validation [[[1, 2, 3, 4, 5]]] 0 0 false false 1 1 5 (by decide)
    (by decide)

/-- C7.  The vertical pass is exactly the horizontal-pass algorithm
transposed: running the horizontal scan on the transpose of the intermediate
buffer with the vertical threshold (same edge mode, corresponding overhead)
and transposing back gives precisely the vertical-pass result, for every
valid intermediate buffer. -/
theorem C7_vertical_is_transposed_horizontal (inter : Image) (Y X ov : ℕ)
    (t : ℚ) (zc Z : ℕ) (hY : 0 < Y) (hX : 0 < X) (hI : inter.length = Y) :
    vertical_pass inter Y X ov t zc Z (create_image X Y Z) =
      transposeImg Y (horizontal_pass (transposeImg X inter) X Y ov t zc Z
        (create_image Y X Z)) :=
  vertical_pass_eq_transposed_horizontal inter Y X ov t zc Z hY hX hI

/-- Witness for C7 on a concrete 2×2 grayscale buffer. -/
theorem C7_vertical_is_transposed_horizontal_witness :
    vertical_pass [[[1], [2]], [[3], [90]]] 2 2 0 5 1 1 (create_image 2 2 1) =
      transposeImg 2 (horizontal_pass (transposeImg 2 [[[1], [2]], [[3], [90]]])
        2 2 0 5 1 1 (create_image 2 2 1)) :=
  C7_vertical_is_transposed_horizontal [[[1], [2]], [[3], [90]]] 2 2 0 5 1 1
    (by decide) (by decide) (by decide)

/-- C8.  The breach test quantifies only over the first `Z_COLOR` channels:
a breach fires iff some channel `c < Z_COLOR` has
`abs(pixel[c] − sum[c]/count) > threshold`; for Z ∈ {2,4} the alpha channel
is the excluded index `Z − 1`, yet it is still added to the running sum and
floor-divided into the flushed average. -/
theorem C8_breach_color_channels_only (t : ℚ) (n Z : ℕ) (p ps : Pixel)
    (hZ : Z = 2 ∨ Z = 4) (hp : p.length = Z) (hps : ps.length = Z) (hn : 0 < n) :
    (breach t n (zcolor Z) p ps = true ↔
      ∃ c, c < zcolor Z ∧ |(p.getD c 0 : ℚ) - (ps.getD c 0 : ℚ) / (n : ℚ)| > t) ∧
    zcolor Z = Z - 1 ∧
    (pixels_sum_update p ps).getD (zcolor Z) 0 =
      p.getD (zcolor Z) 0 + ps.getD (zcolor Z) 0 ∧
    (average_pixel ps n Z).getD (zcolor Z) 0 =
      Int.fdiv (ps.getD (zcolor Z) 0) (n : ℤ) := by
  have hzc : zcolor Z < Z := zcolor_lt hZ
  have hzw : (List.zipWith (criterion t n) (p.take (zcolor Z))
      (ps.take (zcolor Z))).length = zcolor Z := by
    rw [List.length_zipWith, List.length_take, List.length_take, hp, hps]
    omega
  refine ⟨?_, ?_, ?_, ?_⟩
  · unfold breach
    rw [List.any_eq_true]
    constructor
    · rintro ⟨b, hbmem, hid⟩
      rw [List.mem_iff_getElem] at hbmem
      obtain ⟨c, hc, rfl⟩ := hbmem
      rw [hzw] at hc
      refine ⟨c, hc, ?_⟩
      have hc2 : c < (List.zipWith (criterion t n) (p.take (zcolor Z))
          (ps.take (zcolor Z))).length := by
        rw [hzw]
        exact hc
      have : (List.zipWith (criterion t n) (p.take (zcolor Z))
          (ps.take (zcolor Z)))[c] =
          criterion t n (p.getD c 0) (ps.getD c 0) := by
        rw [List.getElem_zipWith, List.getElem_take, List.getElem_take,
          List.getD_eq_getElem _ _ (by omega), List.getD_eq_getElem _ _ (by omega)]
      rw [this] at hid
      unfold criterion at hid
      simpa using hid
    · rintro ⟨c, hc, hgt⟩
      refine ⟨criterion t n (p.getD c 0) (ps.getD c 0), ?_, ?_⟩
      · rw [List.mem_iff_getElem]
        refine ⟨c, by rw [hzw]; exact hc, ?_⟩
        rw [List.getElem_zipWith, List.getElem_take, List.getElem_take,
          List.getD_eq_getElem _ _ (by omega), List.getD_eq_getElem _ _ (by omega)]
      · unfold criterion
        simpa using hgt
  · rcases hZ with rfl | rfl <;> decide
  · unfold pixels_sum_update
    rw [List.getD_eq_getElem _ _ (by rw [List.length_zipWith, hp, hps]; omega),
      List.getElem_zipWith, List.getD_eq_getElem _ _ (by omega),
      List.getD_eq_getElem _ _ (by omega)]
  · unfold average_pixel
    rw [List.getD_eq_getElem _ _
        (by rw [List.length_zipWith, hps, List.length_replicate]; omega),
      List.getElem_zipWith, List.getElem_replicate,
      List.getD_eq_getElem _ _ (by omega)]

/-- Witness for C8 with LA pixels (Z = 2): breach on the luma channel only. -/
theorem C8_breach_color_channels_only_witness :
    (breach 0 2 (zcolor 2) [5, 7] [2, 4] = true ↔
      ∃ c, c < zcolor 2 ∧ |(([5, 7] : Pixel).getD c 0 : ℚ) -
        (([2, 4] : Pixel).getD c 0 : ℚ) / (2 : ℚ)| > 0) ∧
    zcolor 2 = 2 - 1 ∧
    (pixels_sum_update [5, 7] [2, 4]).getD (zcolor 2) 0 =
      ([5, 7] : Pixel).getD (zcolor 2) 0 + ([2, 4] : Pixel).getD (zcolor 2) 0 ∧
    (average_pixel [2, 4] 2 2).getD (zcolor 2) 0 =
      Int.fdiv (([2, 4] : Pixel).getD (zcolor 2) 0) (2 : ℤ) :=
  C8_breach_color_channels_only 0 2 2 [5, 7] [2, 4] (by decide) (by decide)
    (by decide) (by decide)

/-- C10.  Each pass writes every position of its freshly allocated output
buffer at least once, so the zero-filled (and row-aliased) buffer built by
`create_image` is unobservable: running either pass on any other same-shape
initial buffer gives exactly the same result as on `create_image`'s. -/
theorem C10_init_buffers_unobservable (src inter I R : Image)
    (Y X xov yov : ℕ) (tx ty : ℚ) (zc Z : ℕ) (hY : 0 < Y) (hX : 0 < X)
    (hI : I.length = Y) (hIr : ∀ row ∈ I, row.length = X)
    (hinter : inter.length = Y)
    (hR : R.length = Y) (hRr : ∀ row ∈ R, row.length = X) :
    horizontal_pass src Y X xov tx zc Z I =
      horizontal_pass src Y X xov tx zc Z (create_image X Y Z) ∧
    vertical_pass inter Y X yov ty zc Z R =
      vertical_pass inter Y X yov ty zc Z (create_image X Y Z) :=
  ⟨horizontal_pass_indep src Y X xov tx zc Z I (create_image X Y Z) hX hI
      (create_image_length X Y Z) hIr (create_image_rows X Y Z),
    vertical_pass_indep inter Y X yov ty zc Z R (create_image X Y Z) hY hinter hR
      (create_image_length X Y Z) hRr (create_image_rows X Y Z)⟩

/-- Witness for C10: passes over a 1×2 image started from a non-zero buffer. -/
theorem C10_init_buffers_unobservable_witness :
    horizontal_pass [[[3], [9]]] 1 2 0 0 1 1 [[[7], [8]]] =
      horizontal_pass [[[3], [9]]] 1 2 0 0 1 1 (create_image 2 1 1) ∧
    vertical_pass [[[3], [9]]] 1 2 0 0 1 1 [[[7], [8]]] =
      vertical_pass [[[3], [9]]] 1 2 0 0 1 1 (create_image 2 1 1) :=
  C10_init_buffers_unobservable [[[3], [9]]] [[[3], [9]]] [[[7], [8]]] [[[7], [8]]]
    1 2 0 0 0 0 1 1 (by decide) (by decide) (by decide) (by decide) (by decide)
    (by decide) (by decide)

/-- C3.  For every valid input image and every combination of thresholds,
edge mode and `keep_alpha`, the returned buffer has exactly `Y` rows of `X`
pixels of `Z` channels each — the same shape as the source. -/
theorem C3_shape_preservation (src : Image) (tx ty : ℚ) (w k : Bool)
    (Y X Z : ℕ) (h : ValidImage src Y X Z) (hZ : Z = 1 ∨ Z = 2 ∨ Z = 3 ∨ Z = 4) :
    ∃ out, filter src tx ty w k = some out ∧ out.length = Y ∧
      (∀ row ∈ out, row.length = X) ∧ (∀ row ∈ out, ∀ p ∈ row, p.length = Z) := by
  obtain ⟨hY, hX, hsrc, hrows, hpix⟩ := h
  have hne : src ≠ [] := by
    intro hcon
    rw [hcon] at hsrc
    simp only [List.length_nil] at hsrc
    omega
  have h1 : src.head? = some (src.head hne) := List.head?_eq_head hne
  have hr0mem : src.head hne ∈ src := List.head_mem hne
  have hr0len : (src.head hne).length = X := hrows _ hr0mem
  have hr0ne : src.head hne ≠ [] := by
    intro hcon
    rw [hcon] at hr0len
    simp only [List.length_nil] at hr0len
    omega
  have h2 : (src.head hne).head? = some ((src.head hne).head hr0ne) :=
    List.head?_eq_head hr0ne
  have hp0len : ((src.head hne).head hr0ne).length = Z :=
    hpix _ hr0mem _ (List.head_mem hr0ne)
  obtain ⟨hHlen, hHrows, hHpix⟩ := horizontal_pass_shape src Y X
    (overheads w X Y).1 tx (zcolor Z) Z (create_image X Y Z) hX hsrc hrows hpix
    (create_image_length X Y Z) (create_image_rows X Y Z) (create_image_pix X Y Z)
  obtain ⟨hVlen, hVrows, hVpix⟩ := vertical_pass_shape _ Y X
    (overheads w X Y).2 ty (zcolor Z) Z (create_image X Y Z) hY hX hHlen hHrows hHpix
    (create_image_length X Y Z) (create_image_rows X Y Z) (create_image_pix X Y Z)
  by_cases hz : Z = 1 ∨ Z = 3
  · have heq := filter_some_no_alpha src _ _ tx ty w k h1 h2 (by rw [hp0len]; exact hz)
    rw [hsrc, hr0len, hp0len] at heq
    exact ⟨_, heq, hVlen, hVrows, hVpix⟩
  · have hZ24 : Z = 2 ∨ Z = 4 := by
      rcases hZ with rfl | rfl | rfl | rfl
      · exact absurd (Or.inl rfl) hz
      · exact Or.inl rfl
      · exact absurd (Or.inr rfl) hz
      · exact Or.inr rfl
    have hz' : ¬(((src.head hne).head hr0ne).length = 1 ∨
        ((src.head hne).head hr0ne).length = 3) := by rw [hp0len]; exact hz
    cases k with
    | true =>
      have heq := filter_some_keep_alpha src _ _ tx ty w h1 h2 hz'
      rw [hsrc, hr0len, hp0len] at heq
      refine ⟨_, heq, keep_alpha_image_length _ _ _ _ _,
        keep_alpha_image_rows _ _ _ _ _, ?_⟩
      have := keep_alpha_image_pix _ src Y X (zcolor Z) Z hVlen hVrows hVpix
        (le_of_lt (zcolor_lt hZ24))
      rw [zcolor_succ_eq hZ24] at this
      exact this
    | false =>
      have heq := filter_some_no_keep src _ _ tx ty w h1 h2 hz'
      rw [hsrc, hr0len, hp0len] at heq
      exact ⟨_, heq, hVlen, hVrows, hVpix⟩

/-- Witness for C3: a 2×2 RGBA image with `wrap_around` and `keep_alpha`. -/
theorem C3_shape_preservation_witness :
    ∃ out, filter [[[1, 2, 3, 4], [5, 6, 7, 8]], [[9, 10, 11, 12], [1, 1, 1, 1]]]
        1 1 true true = some out ∧ out.length = 2 ∧
      (∀ row ∈ out, row.length = 2) ∧ (∀ row ∈ out, ∀ p ∈ row, p.length = 4) :=
  C3_shape_preservation [[[1, 2, 3, 4], [5, 6, 7, 8]], [[9, 10, 11, 12], [1, 1, 1, 1]]]
    1 1 true true 2 2 4 (by decide) (by decide)

/-- C4.  With `keep_alpha = true` and Z ∈ {2,4}, every pixel of the result
carries the source's alpha value verbatim at channel `Z_COLOR`. -/
theorem C4_alpha_keep (src : Image) (tx ty : ℚ) (w : Bool) (Y X Z : ℕ)
    (h : ValidImage src Y X Z) (hZ : Z = 2 ∨ Z = 4) :
    ∃ out, filter src tx ty w true = some out ∧
      ∀ y, y < Y → ∀ x, x < X →
        (get2 out y x).getD (zcolor Z) 0 = (get2 src y x).getD (zcolor Z) 0 := by
  obtain ⟨hY, hX, hsrc, hrows, hpix⟩ := h
  have hne : src ≠ [] := by
    intro hcon
    rw [hcon] at hsrc
    simp only [List.length_nil] at hsrc
    omega
  have h1 : src.head? = some (src.head hne) := List.head?_eq_head hne
  have hr0mem : src.head hne ∈ src := List.head_mem hne
  have hr0len : (src.head hne).length = X := hrows _ hr0mem
  have hr0ne : src.head hne ≠ [] := by
    intro hcon
    rw [hcon] at hr0len
    simp only [List.length_nil] at hr0len
    omega
  have h2 : (src.head hne).head? = some ((src.head hne).head hr0ne) :=
    List.head?_eq_head hr0ne
  have hp0len : ((src.head hne).head hr0ne).length = Z :=
    hpix _ hr0mem _ (List.head_mem hr0ne)
  have hz' : ¬(((src.head hne).head hr0ne).length = 1 ∨
      ((src.head hne).head hr0ne).length = 3) := by
    rw [hp0len]
    exact not_one_three_of_alpha hZ
  have heq := filter_some_keep_alpha src _ _ tx ty w h1 h2 hz'
  rw [hsrc, hr0len, hp0len] at heq
  obtain ⟨hHlen, hHrows, hHpix⟩ := horizontal_pass_shape src Y X
    (overheads w X Y).1 tx (zcolor Z) Z (create_image X Y Z) hX hsrc hrows hpix
    (create_image_length X Y Z) (create_image_rows X Y Z) (create_image_pix X Y Z)
  obtain ⟨hVlen, hVrows, hVpix⟩ := vertical_pass_shape _ Y X
    (overheads w X Y).2 ty (zcolor Z) Z (create_image X Y Z) hY hX hHlen hHrows hHpix
    (create_image_length X Y Z) (create_image_rows X Y Z) (create_image_pix X Y Z)
  refine ⟨_, heq, ?_⟩
  intro y hy x hx
  rw [keep_alpha_image_get2 _ src Y X (zcolor Z) hy hx]
  have hVget : (get2 (vertical_pass
      (horizontal_pass src Y X (overheads w X Y).1 tx (zcolor Z) Z (create_image X Y Z))
      Y X (overheads w X Y).2 ty (zcolor Z) Z (create_image X Y Z)) y x).length = Z := by
    unfold get2
    refine getD_length_of_mem _ Z (hVpix _ (getD_mem _ [] (by rw [hVlen]; exact hy))) ?_
    rw [getD_length_of_mem _ X hVrows (by rw [hVlen]; exact hy)]
    exact hx
  exact getD_take_append_at _ _ (zcolor Z) (by rw [hVget]; exact le_of_lt (zcolor_lt hZ))

/-- Witness for C4 on a 1×1 LA image: the result alpha equals the source's. -/
theorem C4_alpha_keep_witness :
    ∃ out, filter [[[7, 200]]] 0 0 false true = some out ∧
      ∀ y, y < 1 → ∀ x, x < 1 →
        (get2 out y x).getD (zcolor 2) 0 =
          (get2 [[[7, 200]]] y x).getD (zcolor 2) 0 :=
  C4_alpha_keep [[[7, 200]]] 0 0 false 1 1 2 (by decide) (by decide)

/-- C5.  A uniform valid image is a fixed point of `filter` for any
non-negative thresholds, either edge mode and either `keep_alpha`: the
breach criterion never fires and every written value is the uniform pixel. -/
theorem C5_uniform_identity (src : Image) (p : Pixel) (tx ty : ℚ) (w k : Bool)
    (Y X Z : ℕ) (h : ValidImage src Y X Z) (hZ : Z = 1 ∨ Z = 2 ∨ Z = 3 ∨ Z = 4)
    (htx : 0 ≤ tx) (hty : 0 ≤ ty) (huni : ∀ row ∈ src, ∀ q ∈ row, q = p) :
    filter src tx ty w k = some src := by
  obtain ⟨hY, hX, hsrc, hrows, hpix⟩ := h
  have hrepl := uniform_eq_replicate src p Y X hsrc hrows huni
  refine filter_eq_some_src src tx ty w k Y X Z hY hX hsrc hrows hpix hZ ?_ ?_
  · rw [hrepl]
    exact horizontal_pass_uniform p Y X _ tx (zcolor Z) Z _ hY hX htx
      (create_image_length X Y Z) (create_image_rows X Y Z)
  · rw [hrepl]
    exact vertical_pass_uniform p Y X _ ty (zcolor Z) Z _ hY hX hty
      (create_image_length X Y Z) (create_image_rows X Y Z)

/-- Witness for C5 on a uniform 2×2 RGB image with wrap-around. -/
theorem C5_uniform_identity_witness :
    filter [[[3, 4, 5], [3, 4, 5]], [[3, 4, 5], [3, 4, 5]]] 1 1 true false =
      some [[[3, 4, 5], [3, 4, 5]], [[3, 4, 5], [3, 4, 5]]] :=
  C5_uniform_identity [[[3, 4, 5], [3, 4, 5]], [[3, 4, 5], [3, 4, 5]]] [3, 4, 5]
    1 1 true false 2 2 3 (by decide) (by decide) (by decide) (by decide) (by decide)

/-- C9.  With both thresholds negative, the criterion fires at every loop
step, every flush range is empty, and only the literal per-position writes
take effect: `filter` returns the source image unchanged for every valid
image, edge mode and `keep_alpha` value. -/
theorem C9_negative_threshold_identity (src : Image) (tx ty : ℚ) (w k : Bool)
    (Y X Z : ℕ) (h : ValidImage src Y X Z) (hZ : Z = 1 ∨ Z = 2 ∨ Z = 3 ∨ Z = 4)
    (htx : tx < 0) (hty : ty < 0) :
    filter src tx ty w k = some src := by
  obtain ⟨hY, hX, hsrc, hrows, hpix⟩ := h
  have hZpos : 0 < Z := by rcases hZ with rfl | rfl | rfl | rfl <;> decide
  have hpixpos : ∀ row ∈ src, ∀ p ∈ row, 0 < p.length := by
    intro row hrow p hp
    rw [hpix row hrow p hp]
    exact hZpos
  refine filter_eq_some_src src tx ty w k Y X Z hY hX hsrc hrows hpix hZ ?_ ?_
  · exact horizontal_pass_neg src Y X _ tx (zcolor Z) Z _ hX htx (zcolor_pos hZ)
      hsrc hrows hpixpos (create_image_length X Y Z) (create_image_rows X Y Z)
  · exact vertical_pass_neg src Y X _ ty (zcolor Z) Z _ hY hX hty (zcolor_pos hZ)
      hsrc hrows hpixpos (create_image_length X Y Z) (create_image_rows X Y Z)

/-- Witness for C9 on a sharply contrasting 1×2 LA image with wrap-around
and `keep_alpha`. -/
theorem C9_negative_threshold_identity_witness :
    filter [[[1, 2], [200, 3]]] (-1) (-1) true true =
      some [[[1, 2], [200, 3]]] :=
  C9_negative_threshold_identity [[[1, 2], [200, 3]]] (-1) (-1) true true 1 2 2
    (by decide) (by decide) (by decide) (by decide)

/-- C6.  With `wrap_around = false` every buffer access of `filter` stays in
`[0, W) × [0, H)`: the fully bounds-checked variant runs without any index
error and returns the very same result, the overhead is zero, and the
resolver is the identity on every in-range scan index. -/
theorem C6_clamp_mode_no_out_of_range (src : Image) (tx ty : ℚ) (k : Bool)
    (Y X Z : ℕ) (h : ValidImage src Y X Z) (hZ : 0 < Z) :
    checked_filter src tx ty false k = filter src tx ty false k ∧
    (filter src tx ty false k).isSome = true ∧
    (∀ i, i < X → cx_wrap X i = i) ∧ (∀ j, j < Y → cy_wrap Y j = j) ∧
    overheads false X Y = (0, 0) := by
  obtain ⟨hY, hX, hsrc, hrows, hpix⟩ := h
  have hne : src ≠ [] := by
    intro hcon
    rw [hcon] at hsrc
    simp only [List.length_nil] at hsrc
    omega
  refine ⟨checked_filter_eq src tx ty false k Y X Z hY hX hZ hsrc hrows hpix,
    filter_isSome src tx ty false k hne ?_,
    fun i hi => cx_wrap_eq_of_lt hi, fun j hj => cy_wrap_eq_of_lt hj, rfl⟩
  rw [List.headD_eq_head?, List.head?_eq_head hne]
  intro hcon
  simp only [Option.getD_some] at hcon
  have := hrows _ (List.head_mem hne)
  rw [hcon] at this
  simp only [List.length_nil] at this
  omega

/-- Witness for C6 on a 2×2 grayscale image in clamp mode. -/
theorem C6_clamp_mode_no_out_of_range_witness :
    checked_filter [[[1], [2]], [[3], [4]]] 0 0 false false =
      filter [[[1], [2]], [[3], [4]]] 0 0 false false ∧
    (filter [[[1], [2]], [[3], [4]]] 0 0 false false).isSome = true ∧
    (∀ i, i < 2 → cx_wrap 2 i = i) ∧ (∀ j, j < 2 → cy_wrap 2 j = j) ∧
    overheads false 2 2 = (0, 0) :=
  C6_clamp_mode_no_out_of_range [[[1], [2]], [[3], [4]]] 0 0 false 2 2 1
    (by decide) (by decide)
